import Mathlib

/-!
Verification development for the darkside (synthetic test chain) state machine
in `common/darkside.go` and the mempool filtering code of the gRPC frontend of
this lightwalletd fork.  Go byte slices are embedded as lists of naturals,
stateful functions as explicit state-passing functions, and fallible functions
return `Except` or an explicit result type.  Components of the repository whose
source is not included here (the `parser` package and the cryptographic
hashes) are modelled from the specification; each such definition carries a
doc comment starting with "Modelled from the spec:".
-/

set_option linter.unusedVariables false
set_option maxRecDepth 8000

/-- Byte strings (Go byte slices) as lists of naturals.  Code that writes a
byte reduces it modulo 256, mirroring Go's `byte` arithmetic. -/
abbrev Bytes := List Nat

/-- Read the byte at index `i` (Go `b[i]`); out-of-range reads default to 0,
which is only used at indices the Go code never reads out of range. -/
def getB (b : Bytes) (i : Nat) : Nat := b.getD i 0

/-- Write the byte at index `i` (Go `b[i] = x`); out of range it is a no-op,
which the Go code never does (it would panic). -/
def setB (b : Bytes) (i : Nat) (x : Nat) : Bytes := b.set i x

/-- A run of `n` zero bytes (Go `make([]byte, n)`). -/
def zeros (n : Nat) : Bytes := List.replicate n 0

def setRangeAux (v : Bytes) (off : Nat) : Bytes → Nat → Bytes
  | [], _ => []
  | x :: xs, i => (if off ≤ i ∧ i - off < v.length then getB v (i - off) else x) :: setRangeAux v off xs (i + 1)

/-- Go `copy(b[off:off+len(v)], v)`: overwrite the bytes of `b` at offsets
`off, off+1, ...` with the bytes of `v`, stopping at the end of `b`. -/
def setRange (b : Bytes) (off : Nat) (v : Bytes) : Bytes := setRangeAux v off b 0

/-- Read `n` consecutive bytes starting at `off` (Go `b[off:off+n]`). -/
def extract (b : Bytes) (off n : Nat) : Bytes := (List.range n).map (fun k => getB b (off + k))

/-- Hexadecimal value of one character (Go `encoding/hex` digit decoding,
accepting both cases). -/
def hexVal (c : Char) : Option Nat :=
  if '0' ≤ c ∧ c ≤ '9' then some (c.toNat - '0'.toNat)
  else if 'a' ≤ c ∧ c ≤ 'f' then some (c.toNat - 'a'.toNat + 10)
  else if 'A' ≤ c ∧ c ≤ 'F' then some (c.toNat - 'A'.toNat + 10)
  else none

/-- Go `hex.DecodeString` on a character list: pairs of hex digits to bytes;
fails on an odd length or a non-hex character. -/
def hexDecodeChars : List Char → Option Bytes
  | [] => some []
  | [_] => none
  | c1 :: c2 :: rest =>
    match hexVal c1, hexVal c2, hexDecodeChars rest with
    | some hi, some lo, some bs => some ((16 * hi + lo) :: bs)
    | _, _, _ => none

/-- Go `hex.DecodeString`. -/
def hexDecode (s : String) : Option Bytes := hexDecodeChars s.data

/-- Lowercase hex digit for a value below 16 (Go `%x` formatting). -/
def hexChar (n : Nat) : Char :=
  if n < 10 then Char.ofNat (48 + n) else Char.ofNat (97 + n - 10)

/-- Two lowercase hex digits of one byte (Go `%02x` on a value below 256). -/
def hexPair (b : Nat) : List Char := [hexChar (b / 16 % 16), hexChar (b % 16)]

/-- Go `hex.EncodeToString`. -/
def hexEncode (b : Bytes) : String :=
  String.mk (b.foldr (fun x acc => hexPair x ++ acc) [])

/-- Index of the first occurrence of `pat` in `l` (the search done by Go
`strings.Replace`). -/
def findSub (pat : List Char) : List Char → Option Nat
  | [] => if pat.isPrefixOf ([] : List Char) then some 0 else none
  | c :: t => if pat.isPrefixOf (c :: t) then some 0
      else (findSub pat t).map (fun n => n + 1)

/-- Go `strings.Replace(s, pat, rep, 1)`: replace the first occurrence of
`pat` (if any) by `rep`. -/
def replaceOnce (s pat rep : List Char) : List Char :=
  match findSub pat s with
  | none => s
  | some k => s.take k ++ rep ++ s.drop (k + pat.length)

/-- Length of the serialized block header, from the offsets in the Go source
(version 0, prev-hash 4, merkle 36, final-sapling root 68, time 100, nBits
104, nonce 108, solution 140/143; total 1487). -/
def headerLen : Nat := 1487

/-- Modelled from the spec: `parser.Block.ParseFromSlice` together with the
caller's "block serialization is too long" check — the source of the parser
package is not part of this repository.  The spec asks only that blocks be
"well-formed enough to decode"; we model well-formedness as having at least
the 1487-byte header, the transaction-count byte, and a coinbase long enough
to carry the height field (bytes 1535..1538). -/
def blockParses (b : Bytes) : Bool := decide (1539 ≤ b.length)

/-- Modelled from the spec: `parser.Block.GetHeight`, "the block's own
declared height" — the 4-byte little-endian height field the builder patches
into the coinbase, at block offset 1535 (header 1487 bytes, one
transaction-count byte, 47 bytes into the coinbase transaction). -/
def blockGetHeight (b : Bytes) : Int :=
  Int.ofNat (getB b 1535 + 256 * getB b 1536 + 65536 * getB b 1537 + 16777216 * getB b 1538)

/-- Modelled from the spec: a 32-byte cryptographic digest (SHA-256 family).
The hash algorithm itself is outside this repository; the chain-linking and
determinism claims need only a fixed deterministic function with 32-byte
output, which this is. -/
def digest32 (seed : Nat) (b : Bytes) : Bytes :=
  let acc := b.foldl (fun a x => (a * 131 + x + 1) % 18446744073709551616) seed
  (List.range 32).map (fun i => (acc + i * i * 2654435761) % 256)

/-- Modelled from the spec: `parser.Block.GetEncodableHash` — the block's own
hash, a function of its serialized 1487-byte header (the spec's step 4
recomputes it "after each step", i.e. on the current bytes). -/
def blockHash (b : Bytes) : Bytes := digest32 7 (b.take headerLen)

/-- Modelled from the spec: the transaction id (`GetDisplayHash`) of a raw
transaction. -/
def txDisplayHash (b : Bytes) : Bytes := digest32 11 b

/-- Modelled from the spec: `parser.Transaction.ParseFromSlice` consuming the
whole input — "the bytes ... decode as a well-formed transaction with nothing
left over".  Modelled as nonemptiness. -/
def txParsesExactly (b : Bytes) : Bool := decide (1 ≤ b.length)

/-- One staged transaction (Go `stagedTx`). -/
structure StagedTx where
  height : Int
  txBytes : Bytes
deriving DecidableEq

/-- The darkside state (Go `darksideState`; the `cache` pointer and the mutex
are process resources, not data, and are not modelled). -/
structure DState where
  resetted : Bool
  startHeight : Int
  saplingActivation : Int
  branchID : String
  chainName : String
  latestHeight : Int
  activeBlocks : List Bytes
  stagedBlocks : List Bytes
  incomingTransactions : List Bytes
  stagedTransactions : List StagedTx
deriving DecidableEq

/-- The zero value of `darksideState` (Go `var state darksideState`). -/
def initState : DState :=
  { resetted := false
    startHeight := 0
    saplingActivation := 0
    branchID := ""
    chainName := ""
    latestHeight := 0
    activeBlocks := []
    stagedBlocks := []
    incomingTransactions := []
    stagedTransactions := [] }

/-- Go `DarksideReset`: replace the whole state, keeping only the cache and
mutex; unmentioned fields get their zero value (so `startHeight` becomes 0). -/
def darksideReset (s : DState) (sa : Int) (bi cn : String) : DState :=
  { resetted := true
    startHeight := 0
    saplingActivation := sa
    branchID := bi
    chainName := cn
    latestHeight := -1
    activeBlocks := []
    stagedBlocks := []
    incomingTransactions := []
    stagedTransactions := [] }

/-- The truncation step of Go `addBlockActive`: a height beyond the
contiguous extension point, or below `startHeight`, drops the whole active
range; otherwise the blocks at and above the new height are dropped. -/
def truncateForHeight (s : DState) (blockHeight : Int) : DState :=
  if blockHeight > s.startHeight + (s.activeBlocks.length : Int) then
    { s with activeBlocks := [] }
  else if blockHeight < s.startHeight then
    { s with activeBlocks := [] }
  else
    { s with activeBlocks := s.activeBlocks.take (blockHeight - s.startHeight).toNat }

/-- The append step of Go `addBlockActive`: onto an emptied range the block
starts a new one at its own height; otherwise its prev-hash field is pointed
at the current last active block's hash (re-parsing that block first) and it
is appended. -/
def appendActive (s1 : DState) (blockBytes : Bytes) (blockHeight : Int) : DState × Option String :=
  if s1.activeBlocks.length = 0 then
    ({ s1 with startHeight := blockHeight, activeBlocks := [blockBytes] }, none)
  else
    if ¬ blockParses (s1.activeBlocks.getLastD []) then (s1, some "block parse error")
    else
      ({ s1 with activeBlocks :=
          s1.activeBlocks ++
            [setRange blockBytes 4 (blockHash (s1.activeBlocks.getLastD []))] }, none)

/-- Go `addBlockActive`.  Returns the state after the call together with the
error, if any; on the error paths the truncation already performed is kept,
exactly as in the Go code (which mutates `state` in place). -/
def addBlockActive (s : DState) (blockBytes : Bytes) : DState × Option String :=
  if ¬ blockParses blockBytes then (s, some "block parse error")
  else appendActive (truncateForHeight s (blockGetHeight blockBytes)) blockBytes
    (blockGetHeight blockBytes)

/-- Go `setPrevhash`: relink the whole active sequence front to back.  The Go
code parses each block before mutating it and calls `Log.Fatal` (process
abort, modelled as `none`) if that fails; the hash taken as the next block's
prev-hash is computed from the block's bytes after its own prev-hash was
written (the parser aliases the underlying array). -/
def setPrevhashGo : List Bytes → Bytes → Option (List Bytes)
  | [], _ => some []
  | blockBytes :: rest, prevhash =>
    if ¬ blockParses blockBytes then none
    else
      match setPrevhashGo rest (blockHash (setRange blockBytes 4 prevhash)) with
      | none => none
      | some l => some (setRange blockBytes 4 prevhash :: l)

/-- The block mutation Go performs when placing one staged transaction:
`block[1487]++` (one more transaction), then `block[68]++` (the hash
perturbation), then append the raw transaction bytes. -/
def placeTxInBlock (blk txb : Bytes) : Bytes :=
  (setB (setB blk 1487 ((getB blk 1487 + 1) % 256)) 68
    ((getB (setB blk 1487 ((getB blk 1487 + 1) % 256)) 68 + 1) % 256)) ++ txb

/-- The staged-transaction loop of Go `DarksideApplyStaged`: place each staged
transaction, in arrival order, into the active block at its height; return the
(possibly partially) updated active list and the first error, if any. -/
def applyTxs (startHeight : Int) : List StagedTx → List Bytes → List Bytes × Option String
  | [], activeBlocks => (activeBlocks, none)
  | tx :: txs, activeBlocks =>
    if tx.height < startHeight then (activeBlocks, some "transaction height too low")
    else if tx.height ≥ startHeight + (activeBlocks.length : Int) then
      (activeBlocks, some "transaction height too high")
    else if getB (activeBlocks.getD (tx.height - startHeight).toNat []) 1487 = 253 then
      (activeBlocks, some "too many transactions in a block (max 253)")
    else
      applyTxs startHeight txs (activeBlocks.set (tx.height - startHeight).toNat
        (placeTxInBlock (activeBlocks.getD (tx.height - startHeight).toNat []) tx.txBytes))

/-- The staged-block loop of Go `DarksideApplyStaged`: merge each staged block
into the active list in arrival order, stopping at the first error. -/
def mergeStagedBlocks (s : DState) : List Bytes → DState × Option String
  | [] => (s, none)
  | b :: bs =>
    match addBlockActive s b with
    | (s1, some e) => (s1, some e)
    | (s1, none) => mergeStagedBlocks s1 bs

/-- Result of Go `DarksideApplyStaged`: success, an error return (with the
state it leaves behind), or a `Log.Fatal` process abort inside `setPrevhash`. -/
inductive ApplyResult where
  | ok (s : DState)
  | err (msg : String) (s : DState)
  | fatal
deriving DecidableEq

/-- The part of Go `DarksideApplyStaged` after the staged-block merge, on the
state with `stagedBlocks` already cleared: place the staged transactions,
then fail if any transactions were staged at all (the Go loop places the
entries but never removes them from the list, so this length check fires
whenever the list was non-empty), then clear the list, relink the chain and
publish the new latest height. -/
def applyStagedTail (height : Int) (s2 : DState) : ApplyResult :=
  match applyTxs s2.startHeight s2.stagedTransactions s2.activeBlocks with
  | (bs, some e) => .err e { s2 with activeBlocks := bs }
  | (bs, none) =>
    if s2.stagedTransactions.length > 0 then
      .err "one or more transactions have no block" { s2 with activeBlocks := bs }
    else
      match setPrevhashGo bs (zeros 32) with
      | none => .fatal
      | some bs2 =>
        .ok { s2 with
          stagedTransactions := []
          activeBlocks := bs2
          latestHeight := height }

/-- Go `DarksideApplyStaged(height)`. -/
def darksideApplyStaged (s : DState) (height : Int) : ApplyResult :=
  if ¬ s.resetted then .err "please call Reset first" s
  else
    match mergeStagedBlocks s s.stagedBlocks with
    | (s1, some e) => .err e s1
    | (s1, none) => applyStagedTail height { s1 with stagedBlocks := [] }

/-- Go `DarksideStageBlockStream`: decode the hex block and append it to the
staging area.  Note: unlike every other mutating darkside operation, this one
does not check `state.resetted`. -/
def darksideStageBlockStream (s : DState) (blockHex : String) : Except String DState :=
  match hexDecode blockHex with
  | none => .error "encoding error"
  | some blockBytes => .ok { s with stagedBlocks := s.stagedBlocks ++ [blockBytes] }

/-- The line loop of Go `DarksideStageBlocks`: each line of the fetched
resource is one hex block, appended in order; fail fast on the sentinel line
or a hex error, keeping the blocks already staged. -/
def stageBlocksLines (s : DState) : List String → Except String DState
  | [] => .ok s
  | line :: rest =>
    if line = "404: Not Found" then .error line
    else match hexDecode line with
      | none => .error "encoding error"
      | some bb => stageBlocksLines { s with stagedBlocks := s.stagedBlocks ++ [bb] } rest

/-- Go `DarksideStageBlocks(url)`; the http fetch is an external collaborator,
so the downloaded resource is passed as its list of lines. -/
def darksideStageBlocks (s : DState) (lines : List String) : Except String DState :=
  if ¬ s.resetted then .error "please call Reset first"
  else stageBlocksLines s lines

/-- Go `DarksideStageTransaction(height, txBytes)`. -/
def darksideStageTransaction (s : DState) (height : Int) (txBytes : Bytes) : Except String DState :=
  if ¬ s.resetted then .error "please call Reset first"
  else .ok { s with stagedTransactions := s.stagedTransactions ++ [⟨height, txBytes⟩] }

/-- Go `DarksideSendTransaction(txHex)` (the record-incoming operation):
decode, parse for error checking, append to the incoming list, return the id. -/
def darksideSendTransaction (s : DState) (txHex : String) : Except String (DState × Bytes) :=
  if ¬ s.resetted then .error "please call Reset first"
  else match hexDecode txHex with
    | none => .error "encoding error"
    | some txBytes =>
      if ¬ txParsesExactly txBytes then .error "transaction parse error"
      else .ok ({ s with incomingTransactions := s.incomingTransactions ++ [txBytes] },
        txDisplayHash txBytes)

/-- The coinbase template of Go `DarksideStageBlocksCreate` (pulled from block
797905, whose little-endian encoding is d12c0c00), as one hex string. -/
def fakeCoinbaseHex : String :=
  "0400008085202f89010000000000000000000000000000000000000000000000000000000000000000ffffffff2a03d12c0c00043855975e464b8896790758f824ceac9783622c17ed38f1669b8a45ce1da857dbbe7950e2ffffffff02a0ebce1d000000001976a9147ed15946ec14ae0cd8fa8991eb6084452eb3f77c88ac405973070000000017a914e445cfa944b6f2bdacefbda904a81d5fdd26d77f8700000000000000000000000000000000000000"

/-- The four little-endian bytes of an `int32` height (Go `height&0xFF`,
`(height>>8)&0xFF`, `(height>>16)&0xFF`, `(height>>24)&0xFF`, two's
complement). -/
def le4 (h : Int) : Bytes :=
  let u := (h % 4294967296).toNat
  [u % 256, u / 256 % 256, u / 65536 % 256, u / 16777216 % 256]

/-- The eight lowercase hex characters Go builds with the four
`fmt.Sprintf`s of `%02x` on the height bytes. -/
def hexLE4 (h : Int) : List Char := (le4 h).foldr (fun b acc => hexPair b ++ acc) []

/-- Modelled from the spec: "merkle root = SHA-256 of the string concatenation
of `nonce` and the block's height" — a deterministic 32-byte function of the
pair (nonce, height). -/
def fakeMerkleRoot (nonce height : Int) : Bytes :=
  digest32 ((nonce % 4294967296).toNat * 4294967296 + (height % 4294967296).toNat) []

/-- Modelled from the spec: `parser.BlockHeader.MarshalBinary` on the header
the builder fills in — version 4 (LE at offset 0), zeroed prev-hash (4),
merkle root (36), zeroed final-sapling root (68), time 1 (100), zeroed nBits
(104), zeroed nonce (108), and the 1344-byte zeroed solution with its 3-byte
compact-size length prefix (140); total 1487 bytes. -/
def fakeHeaderBytes (height nonce : Int) : Bytes :=
  [4, 0, 0, 0] ++ zeros 32 ++ fakeMerkleRoot nonce height ++ zeros 32 ++
    [1, 0, 0, 0] ++ zeros 4 ++ zeros 32 ++ [253, 64, 5] ++ zeros 1344

/-- The coinbase of one synthetic block: the template hex with its first
occurrence of "d12c0c00" replaced by the little-endian hex of `height`, then
hex-decoded (Go `strings.Replace` + `hex.DecodeString`). -/
def fakeCoinbaseBytesAt (height : Int) : Bytes :=
  (hexDecodeChars (replaceOnce fakeCoinbaseHex.data ("d12c0c00".data) (hexLE4 height))).getD []

/-- One block produced by Go `DarksideStageBlocksCreate`: header bytes, the
transaction-count byte 1, and the patched coinbase. -/
def mkDarksideBlock (height nonce : Int) : Bytes :=
  fakeHeaderBytes height nonce ++ [1] ++ fakeCoinbaseBytesAt height

/-- The sequence of blocks one call of Go `DarksideStageBlocksCreate`
produces: heights `height, height+1, ...`, `count` of them (`count` is an
`int32`; a non-positive count stages nothing). -/
def createFakeBlocks (height nonce count : Int) : List Bytes :=
  (List.range count.toNat).map (fun (i : Nat) => mkDarksideBlock (height + (i : Int)) nonce)

/-- Go `DarksideStageBlocksCreate(height, nonce, count)`. -/
def darksideStageBlocksCreate (s : DState) (height nonce count : Int) : Except String DState :=
  if ¬ s.resetted then .error "please call Reset first"
  else .ok { s with stagedBlocks := s.stagedBlocks ++ createFakeBlocks height nonce count }

/-- Result of the mock `getblock` RPC of Go `darksideRawRequest`: the "-8:"
not-found sentinel, a quoted hex reply, or an index-out-of-range panic of
`state.activeBlocks[height-state.startHeight]`. -/
inductive GetblockResult where
  | notFound
  | reply (raw : String)
  | panic
deriving DecidableEq

/-- The `getblock` branch of Go `darksideRawRequest`, given the already
unmarshalled height parameter. -/
def darksideGetblock (s : DState) (height : Int) : GetblockResult :=
  if s.activeBlocks.length = 0 then .notFound
  else if height > s.latestHeight then .notFound
  else
    let index := height - s.startHeight
    if 0 ≤ index ∧ index.toNat < s.activeBlocks.length then
      .reply ("\"" ++ hexEncode (s.activeBlocks.getD index.toNat []) ++ "\"")
    else .panic

/-- Go strings (byte strings); the mempool code handles hex transaction ids
through Go's native byte-wise string operations. -/
abbrev GoStr := List Nat

/-- Go's `<` on strings: lexicographic byte-wise comparison. -/
def strLt : GoStr → GoStr → Bool
  | [], [] => false
  | [], _ :: _ => true
  | _ :: _, [] => false
  | a :: s, b :: t => if a < b then true else if b < a then false else strLt s t

/-- Go's `<=` on strings, as the negation of reversed `<`. -/
def strLe (a b : GoStr) : Bool := ! strLt b a

/-- Go `strings.HasPrefix(s, pre)`. -/
def hasPrefixGo (s pre : GoStr) : Bool := pre.isPrefixOf s

/-- The `lessthan` closure of Go `MempoolFilter`: compare the exclude entry
`e` against the item `x` truncated to `min(len(e), len(x))` bytes (`List.take`
clamps, so `x.take e.length` is exactly Go's `i[0:l]`). -/
def lessthanGo (e x : GoStr) : Bool := strLt e (x.take e.length)

/-- Go `sort.Slice` with a byte-wise `<` comparator.  Since the order is total
and antisymmetric, every comparison sort produces this same list; we model it
with insertion sort. -/
def sortStrs (l : List GoStr) : List GoStr :=
  l.insertionSort (fun a b => strLe a b = true)

/-- The loop body of `advanceEI`, with the loop's iteration bound
`len(exclude) - ei` made an explicit structural argument (each iteration
increments `ei`, so the loop runs at most that often; once the fuel is 0 the
guard `ei < len(exclude)` is false anyway). -/
def advanceEIAux (exclude : List GoStr) (x : GoStr) : Nat → Nat → Nat
  | 0, ei => ei
  | fuel + 1, ei =>
    if ei < exclude.length then
      if lessthanGo (exclude.getD ei []) x then advanceEIAux exclude x fuel (ei + 1) else ei
    else ei

/-- The exclude-cursor advance loop `for ei < len(exclude) && lessthan(exclude[ei], item) { ei++ }`
shared by both passes of Go `MempoolFilter`. -/
def advanceEI (exclude : List GoStr) (x : GoStr) (ei : Nat) : Nat :=
  advanceEIAux exclude x (exclude.length - ei) ei

/-- The per-item match test `ei < len(exclude) && strings.HasPrefix(item, exclude[ei])`
of Go `MempoolFilter`. -/
def matchAtEI (exclude : List GoStr) (x : GoStr) (ei : Nat) : Bool :=
  decide (ei < exclude.length) && hasPrefixGo x (exclude.getD ei [])

/-- The first pass of Go `MempoolFilter`: count, in `nmatches`, how many items
match each exclude entry (at the cursor position reached for that item). -/
def tallyPass (exclude : List GoStr) : List GoStr → Nat → List Nat → List Nat
  | [], _, nmatches => nmatches
  | item :: items, ei, nmatches =>
    let ei2 := advanceEI exclude item ei
    let nm2 := if matchAtEI exclude item ei2 then setB nmatches ei2 (getB nmatches ei2 + 1)
      else nmatches
    tallyPass exclude items ei2 nm2

/-- The second pass of Go `MempoolFilter`: keep an item unless it matches the
cursor entry and that entry matched exactly one item. -/
def keepPass (exclude : List GoStr) (nmatches : List Nat) : List GoStr → Nat → List GoStr
  | [], _ => []
  | item :: items, ei =>
    let ei2 := advanceEI exclude item ei
    if (! matchAtEI exclude item ei2) || decide (getB nmatches ei2 > 1) then
      item :: keepPass exclude nmatches items ei2
    else keepPass exclude nmatches items ei2

/-- Go `MempoolFilter(items, exclude)`. -/
def MempoolFilter (items exclude : List GoStr) : List GoStr :=
  let items2 := sortStrs items
  let exclude2 := sortStrs exclude
  let nmatches := tallyPass exclude2 items2 0 (List.replicate exclude2.length 0)
  keepPass exclude2 nmatches items2 0

/-- Specification-level cursor: the index of the first entry of `exclude`
that is not `lessthan` the item `x` (the length of `exclude` if every entry
is), defined per item instead of by a threaded mutable cursor. -/
def cursorIdx (exclude : List GoStr) (x : GoStr) : Nat :=
  exclude.findIdx (fun e => ! lessthanGo e x)

/-- Specification-level match: does the item have its cursor entry as a
prefix? -/
def cursorMatches (exclude : List GoStr) (x : GoStr) : Bool :=
  matchAtEI exclude x (cursorIdx exclude x)

/-- Specification-level tally: how many of the items both land their cursor on
index `j` and have that entry as a prefix. -/
def cursorTally (exclude : List GoStr) (items : List GoStr) (j : Nat) : Nat :=
  items.countP (fun y => decide (cursorIdx exclude y = j) && cursorMatches exclude y)

/-- Cursor-free restatement of `MempoolFilter`: sort both lists, then keep
each item unless its cursor entry is a prefix of it and that entry is the
matched cursor entry of exactly one item. -/
def mempoolFilterSpec (items exclude : List GoStr) : List GoStr :=
  let items2 := sortStrs items
  let exclude2 := sortStrs exclude
  items2.filter (fun x =>
    (! cursorMatches exclude2 x) ||
      decide (cursorTally exclude2 items2 (cursorIdx exclude2 x) > 1))

/-- Compact transaction as far as the mempool path observes it: only the
`Hash` field matters (it is empty exactly in the placeholder
`&walletrpc.CompactTx{}`). -/
structure CompactTx where
  hash : Bytes
deriving DecidableEq

/-- Modelled from the spec: `parser.Transaction.HasSaplingElements` — whether
the transaction "contains any shielded-pool elements". -/
def hasSaplingElements (b : Bytes) : Bool := b.any (fun x => decide (128 ≤ x))

/-- Modelled from the spec: `tx.ToCompact(0)` — the compacted form of a
parsed transaction; its hash is the 32-byte transaction id, hence non-empty. -/
def toCompact (b : Bytes) : CompactTx := { hash := txDisplayHash b }

/-- The mempool map (Go `map[string]*walletrpc.CompactTx`), as an association
list where the most recent insertion shadows older ones. -/
abbrev MMap := List (GoStr × CompactTx)

/-- Go map lookup: `(*m)[txid]`, `none` when the key is absent. -/
def mlookup (m : MMap) (k : GoStr) : Option CompactTx :=
  match m.find? (fun p => decide (p.1 = k)) with
  | some p => some p.2
  | none => none

/-- Go map assignment `m[k] = v` (overwrite by shadowing). -/
def minsert (m : MMap) (k : GoStr) (v : CompactTx) : MMap := (k, v) :: m

/-- The refresh loop of Go `GetMempoolTx`, one step per id of the fresh
mempool list.  `fetch` is the external `getrawtransaction` gateway call,
returning the raw hex or `none` for an RPC error; an id already in the
previous map (`prevMap`; when that is nil the Go code points it at the map
being built, hence `acc`) is carried forward; a failed fetch skips the id; a
fetched transaction is decoded and stored compacted, or as the empty
placeholder when it has no shielded elements. -/
def refreshLoop (fetch : GoStr → Option String) (prevMap : Option MMap) :
    List GoStr → MMap → Except String MMap
  | [], acc => .ok acc
  | txid :: rest, acc =>
    let carrySrc := match prevMap with
      | some p => p
      | none => acc
    match mlookup carrySrc txid with
    | some ctx => refreshLoop fetch prevMap rest (minsert acc txid ctx)
    | none =>
      match fetch txid with
      | none => refreshLoop fetch prevMap rest acc
      | some txStr =>
        match hexDecode txStr with
        | none => .error "encoding error"
        | some txBytes =>
          if ¬ txParsesExactly txBytes then .error "extra data deserializing transaction"
          else
            let entry := if hasSaplingElements txBytes then toCompact txBytes
              else { hash := [] }
            refreshLoop fetch prevMap rest (minsert acc txid entry)

/-- The whole refresh of Go `GetMempoolTx`: rebuild the map from an empty one
over the fresh id list. -/
def refreshMempool (fetch : GoStr → Option String) (prevMap : Option MMap)
    (mempoolList : List GoStr) : Except String MMap :=
  refreshLoop fetch prevMap mempoolList []

/-- The send loop of Go `GetMempoolTx`: look each filter-surviving id up in
the map and send the entry when its `Hash` is non-empty.  An id absent from
the map yields a nil `*walletrpc.CompactTx`, and the `tx.Hash` field access
panics: modelled as `none` (the ids before the offending one were already
streamed when the panic hits, but the call as a whole dies). -/
def mempoolSendList (m : MMap) : List GoStr → Option (List CompactTx)
  | [] => some []
  | txid :: rest =>
    match mlookup m txid with
    | none => none
    | some tx =>
      match mempoolSendList m rest with
      | none => none
      | some l => some (if 0 < tx.hash.length then tx :: l else l)

/-- Go `GetMempoolTx` after a refresh: the refreshed map together with what
the send loop produces for the filter output (the exclude list having already
been hex-encoded by the caller loop). -/
def getMempoolQuery (fetch : GoStr → Option String) (prevMap : Option MMap)
    (mempoolList : List GoStr) (excludeHex : List GoStr) :
    Except String (MMap × Option (List CompactTx)) :=
  match refreshMempool fetch prevMap mempoolList with
  | .error e => .error e
  | .ok m => .ok (m, mempoolSendList m (MempoolFilter mempoolList excludeHex))

-- ===== DERIVED-DEFINITIONS =====

/-- Every block of the list passes the parse (well-formedness) check.  All
reachable active lists satisfy this: blocks enter through `addBlockActive`,
which parses them, and later mutations only grow them. -/
def activeParsesOk (bs : List Bytes) : Prop := ∀ b ∈ bs, blockParses b = true

/-- The positional-height property: the block stored at index `i` declares
height `startHeight + i`. -/
def heightsPositional (startHeight : Int) (bs : List Bytes) : Prop :=
  ∀ i, i < bs.length → blockGetHeight (bs.getD i []) = startHeight + i

/-- The hash-chaining property of the spec: the first block's prev-hash field
is all zero, and each later block's prev-hash field is the hash of its
predecessor (as the predecessor finally stands). -/
def hashChained (bs : List Bytes) : Prop :=
  (0 < bs.length → extract (bs.getD 0 []) 4 32 = zeros 32) ∧
    (∀ i, i < bs.length - 1 → extract (bs.getD (i + 1) []) 4 32 = blockHash (bs.getD i []))

/-- Recursive form of the chain property, seeded with the running prev-hash. -/
def chainedFrom : Bytes → List Bytes → Prop
  | _, [] => True
  | ph, b :: rest => extract b 4 32 = ph ∧ chainedFrom (blockHash b) rest

/-- Constructor tag of an `ApplyResult` (0 ok, 1 err, 2 fatal). -/
def applyResultTag : ApplyResult → Nat
  | .ok _ => 0
  | .err _ _ => 1
  | .fatal => 2

/-- Error message of an `ApplyResult` (empty for ok/fatal). -/
def applyResultMsg : ApplyResult → String
  | .err m _ => m
  | _ => ""

/-- State carried by an `ApplyResult` (the default for fatal). -/
def applyResultState (d : DState) : ApplyResult → DState
  | .ok s => s
  | .err _ s => s
  | .fatal => d

/-- Bytes of the coinbase template strictly before the patched height field
(the first 47 bytes, 94 hex characters). -/
def cbPrefixBytes : Bytes := (hexDecodeChars (fakeCoinbaseHex.data.take 94)).getD []

/-- Bytes of the coinbase template strictly after the patched height field. -/
def cbSuffixBytes : Bytes := (hexDecodeChars (fakeCoinbaseHex.data.drop 102)).getD []

/-- Byte string of an ASCII literal, for concrete instances. -/
def sbStr (s : String) : GoStr := s.data.map Char.toNat

/-- A minimal well-formed block: 1539 zero bytes (declared height 0,
transaction count 0). -/
def emptyBlock1539 : Bytes := List.replicate 1539 0

/-- A minimal well-formed block declaring height 10. -/
def blk10 : Bytes := List.replicate 1535 0 ++ [10, 0, 0, 0]

/-- The state reached by `Reset(5, "aa", "test")` followed by staging `blk10`
through the streamed stage-block call. -/
def c6staged : DState :=
  { darksideReset initState 5 "aa" "test" with stagedBlocks := [blk10] }

/-- A small state for exercising the reply branch of the mock getblock (the
read path never parses blocks, so short byte strings suffice). -/
def c6replyState : DState :=
  { darksideReset initState 5 "aa" "test" with
      startHeight := 3
      latestHeight := 3
      activeBlocks := [[1, 2, 3]] }

/-- A resetted state with one parsed active block and one staged transaction
targeting a height below the active range. -/
def c4lowState : DState :=
  { darksideReset initState 0 "aa" "bb" with
      activeBlocks := [emptyBlock1539]
      stagedTransactions := [⟨-1, [9]⟩] }

/-- A resetted state holding one active block of height 0 and one staged
transaction targeting height 0 (an entirely placeable staging). -/
def c1state : DState :=
  { darksideReset initState 0 "aa" "bb" with
      activeBlocks := [emptyBlock1539]
      stagedTransactions := [⟨0, [7]⟩] }

/-- A resetted state with one active parsed block of height 0 at
`startHeight = 0` (so the positional-height invariant holds) and nothing
staged. -/
def c10state : DState :=
  { darksideReset initState 0 "aa" "bb" with
      activeBlocks := [emptyBlock1539] }

/-- A resetted state with two active parsed blocks and nothing staged, used to
exercise a successful commit. -/
def c2state : DState :=
  { darksideReset initState 0 "aa" "bb" with
      activeBlocks := [emptyBlock1539, emptyBlock1539] }

/-- Two distinct already-reset states for exercising the block builder. -/
def c9s1 : DState := darksideReset initState 0 "aa" "bb"

def c9s2 : DState :=
  { darksideReset initState 5 "cc" "dd" with stagedBlocks := [[1, 2, 3]] }

def c9r1 : DState :=
  { c9s1 with stagedBlocks := c9s1.stagedBlocks ++ createFakeBlocks 5 3 2 }

def c9r2 : DState :=
  { c9s2 with stagedBlocks := c9s2.stagedBlocks ++ createFakeBlocks 5 3 2 }

-- ===== THEOREMS =====

theorem getB_nil (i : Nat) : getB [] i = 0 := by cases i <;> rfl

theorem getB_cons_succ (x : Nat) (xs : Bytes) (i : Nat) : getB (x :: xs) (i + 1) = getB xs i := rfl

theorem getB_zeros (n j : Nat) : getB (zeros n) j = 0 := by
  induction n generalizing j with
  | zero => exact getB_nil j
  | succ n ih =>
    cases j with
    | zero => rfl
    | succ j => exact ih j

theorem length_setB (b : Bytes) (i x : Nat) : (setB b i x).length = b.length := by
  simp [setB]

theorem getB_setB (b : Bytes) (i x j : Nat) :
    getB (setB b i x) j = if i = j ∧ j < b.length then x else getB b j := by
  induction b generalizing i j with
  | nil => simp [setB, getB_nil]
  | cons y ys ih =>
    cases i with
    | zero =>
      cases j with
      | zero => simp [setB, getB]
      | succ j => simp [setB, getB, List.getD]
    | succ i =>
      cases j with
      | zero => simp [setB, getB]
      | succ j =>
        have := ih i j
        simp only [setB, List.set] at this ⊢
        simp only [getB_cons_succ, this]
        by_cases h : i = j ∧ j < ys.length
        · have h2 : i + 1 = j + 1 ∧ j + 1 < (y :: ys).length := by
            exact ⟨by omega, by simpa using Nat.succ_lt_succ h.2⟩
          simp [h, h2]
        · have h2 : ¬ (i + 1 = j + 1 ∧ j + 1 < (y :: ys).length) := by
            intro hc
            exact h ⟨by omega, by simpa using Nat.lt_of_succ_lt_succ hc.2⟩
          simp [h, h2]

theorem length_setRangeAux (v : Bytes) (off : Nat) (b : Bytes) (i : Nat) :
    (setRangeAux v off b i).length = b.length := by
  induction b generalizing i with
  | nil => rfl
  | cons x xs ih => simp [setRangeAux, ih]

theorem length_setRange (b : Bytes) (off : Nat) (v : Bytes) :
    (setRange b off v).length = b.length := length_setRangeAux v off b 0

theorem getB_setRangeAux (v : Bytes) (off : Nat) (b : Bytes) (i j : Nat) :
    getB (setRangeAux v off b i) j =
      if off ≤ i + j ∧ i + j - off < v.length ∧ j < b.length then getB v (i + j - off)
      else getB b j := by
  induction b generalizing i j with
  | nil => simp [setRangeAux, getB_nil]
  | cons x xs ih =>
    cases j with
    | zero =>
      simp only [setRangeAux, Nat.add_zero]
      by_cases h : off ≤ i ∧ i - off < v.length
      · have h2 : off ≤ i ∧ i - off < v.length ∧ 0 < (x :: xs).length := by
          exact ⟨h.1, h.2, by simp⟩
        simp [getB, h, h2]
      · have h2 : ¬ (off ≤ i ∧ i - off < v.length ∧ 0 < (x :: xs).length) := by
          intro hc; exact h ⟨hc.1, hc.2.1⟩
        simp [getB, h, h2]
    | succ j =>
      simp only [setRangeAux, getB_cons_succ]
      rw [ih (i + 1) j]
      have harith : i + 1 + j = i + (j + 1) := by omega
      rw [harith]
      by_cases h1 : off ≤ i + (j + 1) ∧ i + (j + 1) - off < v.length ∧ j < xs.length
      · have h2 : off ≤ i + (j + 1) ∧ i + (j + 1) - off < v.length ∧ j + 1 < (x :: xs).length := by
          exact ⟨h1.1, h1.2.1, by simpa using Nat.succ_lt_succ h1.2.2⟩
        simp [h1, h2]
      · have h2 : ¬ (off ≤ i + (j + 1) ∧ i + (j + 1) - off < v.length ∧ j + 1 < (x :: xs).length) := by
          intro hc
          exact h1 ⟨hc.1, hc.2.1, by simpa using Nat.lt_of_succ_lt_succ hc.2.2⟩
        simp [h1, h2]

theorem getB_setRange (b : Bytes) (off : Nat) (v : Bytes) (j : Nat) :
    getB (setRange b off v) j =
      if off ≤ j ∧ j - off < v.length ∧ j < b.length then getB v (j - off)
      else getB b j := by
  have := getB_setRangeAux v off b 0 j
  simpa [setRange] using this

theorem extract_congr (b c : Bytes) (off n : Nat)
    (h : ∀ k, k < n → getB b (off + k) = getB c (off + k)) :
    extract b off n = extract c off n := by
  unfold extract
  apply List.map_congr_left
  intro k hk
  exact h k (List.mem_range.mp hk)

theorem extract_eq_self (v : Bytes) (n : Nat) (hn : v.length = n) :
    (List.range n).map (fun k => getB v k) = v := by
  subst hn
  induction v with
  | nil => rfl
  | cons x xs ih =>
    rw [List.length_cons, List.range_succ_eq_map, List.map_cons, List.map_map]
    have hhead : getB (x :: xs) 0 = x := rfl
    rw [hhead]
    have hcomp : (fun k => getB (x :: xs) k) ∘ Nat.succ = fun k => getB xs k := by
      funext k
      rfl
    rw [hcomp, ih]

theorem extract_setRange_self (b : Bytes) (off : Nat) (v : Bytes) (n : Nat)
    (hv : v.length = n) (hb : off + n ≤ b.length) :
    extract (setRange b off v) off n = v := by
  unfold extract
  have hp : ∀ k, k < n → getB (setRange b off v) (off + k) = getB v k := by
    intro k hk
    rw [getB_setRange]
    have hc : off ≤ off + k ∧ off + k - off < v.length ∧ off + k < b.length := by
      refine ⟨Nat.le_add_right _ _, ?_, ?_⟩ <;> omega
    rw [if_pos hc]
    have hkk : off + k - off = k := by omega
    rw [hkk]
  calc (List.range n).map (fun k => getB (setRange b off v) (off + k))
      = (List.range n).map (fun k => getB v k) := by
        apply List.map_congr_left
        intro k hk
        exact hp k (List.mem_range.mp hk)
    _ = v := extract_eq_self v n hv

theorem getD_set_generic {α : Type} (d x : α) (l : List α) (i j : Nat) :
    (l.set i x).getD j d = if i = j ∧ j < l.length then x else l.getD j d := by
  induction l generalizing i j with
  | nil => simp
  | cons y ys ih =>
    cases i with
    | zero =>
      cases j with
      | zero => simp
      | succ j => simp
    | succ i =>
      cases j with
      | zero => simp
      | succ j =>
        have hstep : ((y :: ys).set (i + 1) x).getD (j + 1) d = (ys.set i x).getD j d := rfl
        have hstep2 : (y :: ys).getD (j + 1) d = ys.getD j d := rfl
        rw [hstep, hstep2, ih]
        by_cases h : i = j ∧ j < ys.length
        · have h2 : i + 1 = j + 1 ∧ j + 1 < (y :: ys).length := by
            exact ⟨by omega, by simpa using Nat.succ_lt_succ h.2⟩
          simp [h, h2]
        · have h2 : ¬ (i + 1 = j + 1 ∧ j + 1 < (y :: ys).length) := by
            intro hc
            exact h ⟨by omega, by simpa using Nat.lt_of_succ_lt_succ hc.2⟩
          simp [h, h2]

theorem getD_append_left_generic {α : Type} (d : α) (a t : List α) (j : Nat) (h : j < a.length) :
    (a ++ t).getD j d = a.getD j d := by
  induction a generalizing j with
  | nil => simp at h
  | cons x xs ih =>
    cases j with
    | zero => rfl
    | succ j =>
      have hstep : ((x :: xs) ++ t).getD (j + 1) d = (xs ++ t).getD j d := rfl
      have hstep2 : (x :: xs).getD (j + 1) d = xs.getD j d := rfl
      rw [hstep, hstep2, ih]
      simpa using Nat.lt_of_succ_lt_succ h

theorem getD_append_right_generic {α : Type} (d : α) (a t : List α) (j : Nat) (h : a.length ≤ j) :
    (a ++ t).getD j d = t.getD (j - a.length) d := by
  induction a generalizing j with
  | nil => simp
  | cons x xs ih =>
    cases j with
    | zero => simp at h
    | succ j =>
      have hstep : ((x :: xs) ++ t).getD (j + 1) d = (xs ++ t).getD j d := rfl
      rw [hstep, ih j (by simpa using Nat.le_of_succ_le_succ h)]
      have harith : j - xs.length = j + 1 - (x :: xs).length := by
        simp only [List.length_cons]
        omega
      rw [harith]

theorem getD_take_generic {α : Type} (d : α) (l : List α) (k j : Nat) (h : j < k) :
    (l.take k).getD j d = l.getD j d := by
  induction l generalizing k j with
  | nil => simp
  | cons x xs ih =>
    cases k with
    | zero => omega
    | succ k =>
      cases j with
      | zero => rfl
      | succ j =>
        have hstep : ((x :: xs).take (k + 1)).getD (j + 1) d = (xs.take k).getD j d := rfl
        have hstep2 : (x :: xs).getD (j + 1) d = xs.getD j d := rfl
        rw [hstep, hstep2, ih]
        omega

theorem getD_oob_generic {α : Type} (d : α) (l : List α) (j : Nat) (h : l.length ≤ j) :
    l.getD j d = d := by
  induction l generalizing j with
  | nil => cases j <;> rfl
  | cons x xs ih =>
    cases j with
    | zero => simp at h
    | succ j =>
      have hstep : (x :: xs).getD (j + 1) d = xs.getD j d := rfl
      rw [hstep, ih]
      simpa using Nat.le_of_succ_le_succ h

theorem truncateForHeight_frame (s : DState) (h : Int) :
    (truncateForHeight s h).resetted = s.resetted ∧
    (truncateForHeight s h).startHeight = s.startHeight ∧
    (truncateForHeight s h).stagedBlocks = s.stagedBlocks ∧
    (truncateForHeight s h).stagedTransactions = s.stagedTransactions ∧
    (truncateForHeight s h).incomingTransactions = s.incomingTransactions ∧
    (truncateForHeight s h).latestHeight = s.latestHeight := by
  unfold truncateForHeight
  split
  · simp
  · split <;> simp

theorem appendActive_frame (s1 : DState) (b : Bytes) (h : Int) :
    (appendActive s1 b h).1.resetted = s1.resetted ∧
    (appendActive s1 b h).1.stagedBlocks = s1.stagedBlocks ∧
    (appendActive s1 b h).1.stagedTransactions = s1.stagedTransactions ∧
    (appendActive s1 b h).1.incomingTransactions = s1.incomingTransactions ∧
    (appendActive s1 b h).1.latestHeight = s1.latestHeight := by
  unfold appendActive
  split
  · simp
  · split <;> simp

theorem addBlockActive_frame (s : DState) (b : Bytes) :
    (addBlockActive s b).1.resetted = s.resetted ∧
    (addBlockActive s b).1.stagedBlocks = s.stagedBlocks ∧
    (addBlockActive s b).1.stagedTransactions = s.stagedTransactions ∧
    (addBlockActive s b).1.incomingTransactions = s.incomingTransactions ∧
    (addBlockActive s b).1.latestHeight = s.latestHeight := by
  unfold addBlockActive
  split
  · exact ⟨rfl, rfl, rfl, rfl, rfl⟩
  · have ht := truncateForHeight_frame s (blockGetHeight b)
    have ha := appendActive_frame (truncateForHeight s (blockGetHeight b)) b (blockGetHeight b)
    exact ⟨ha.1.trans ht.1, ha.2.1.trans ht.2.2.1, ha.2.2.1.trans ht.2.2.2.1,
      ha.2.2.2.1.trans ht.2.2.2.2.1, ha.2.2.2.2.trans ht.2.2.2.2.2⟩

theorem mergeStagedBlocks_frame (bs : List Bytes) (s : DState) :
    (mergeStagedBlocks s bs).1.resetted = s.resetted ∧
    (mergeStagedBlocks s bs).1.stagedBlocks = s.stagedBlocks ∧
    (mergeStagedBlocks s bs).1.stagedTransactions = s.stagedTransactions ∧
    (mergeStagedBlocks s bs).1.incomingTransactions = s.incomingTransactions ∧
    (mergeStagedBlocks s bs).1.latestHeight = s.latestHeight := by
  induction bs generalizing s with
  | nil => exact ⟨rfl, rfl, rfl, rfl, rfl⟩
  | cons b rest ih =>
    unfold mergeStagedBlocks
    rcases hadd : addBlockActive s b with ⟨s1, e⟩
    have hframe := addBlockActive_frame s b
    rw [hadd] at hframe
    cases e with
    | none =>
      simp only
      have := ih s1
      exact ⟨by rw [this.1, hframe.1], by rw [this.2.1, hframe.2.1],
        by rw [this.2.2.1, hframe.2.2.1], by rw [this.2.2.2.1, hframe.2.2.2.1],
        by rw [this.2.2.2.2, hframe.2.2.2.2]⟩
    | some msg => exact hframe

theorem applyStaged_ok_elim (s : DState) (height : Int) (s2 : DState)
    (h : darksideApplyStaged s height = .ok s2) :
    s.resetted = true ∧ s.stagedTransactions = [] ∧
    ∃ s1 bs2, mergeStagedBlocks s s.stagedBlocks = (s1, none) ∧
      setPrevhashGo s1.activeBlocks (zeros 32) = some bs2 ∧
      s2 = { s1 with
          stagedBlocks := []
          stagedTransactions := []
          activeBlocks := bs2
          latestHeight := height } := by
  unfold darksideApplyStaged at h
  by_cases hres : s.resetted
  case neg => simp [hres] at h
  rw [if_neg (by simpa using hres)] at h
  rcases hmerge : mergeStagedBlocks s s.stagedBlocks with ⟨s1, e⟩
  rw [hmerge] at h
  have hframe := mergeStagedBlocks_frame s.stagedBlocks s
  rw [hmerge] at hframe
  cases e with
  | some msg => simp at h
  | none =>
    have h2 : applyStagedTail height { s1 with stagedBlocks := [] } = .ok s2 := h
    have hstx : s1.stagedTransactions = s.stagedTransactions := hframe.2.2.1
    unfold applyStagedTail at h2
    simp only at h2
    rcases htx : s.stagedTransactions with _ | ⟨t, ts⟩
    · rw [htx] at hstx
      rw [hstx] at h2
      simp only [applyTxs] at h2
      rcases hsp : setPrevhashGo s1.activeBlocks (zeros 32) with _ | bs2
      · rw [hsp] at h2
        simp at h2
      · rw [hsp] at h2
        simp only [List.length_nil, gt_iff_lt, lt_self_iff_false, if_false,
          ApplyResult.ok.injEq] at h2
        refine ⟨by simpa using hres, rfl, s1, bs2, rfl, hsp, ?_⟩
        exact h2.symm
    · exfalso
      rw [hstx, htx] at h2
      rcases happ : applyTxs s1.startHeight (t :: ts) s1.activeBlocks with ⟨bs, e2⟩
      rw [happ] at h2
      cases e2 with
      | some m => simp at h2
      | none => simp at h2

theorem applyStaged_err_of_stagedTx (s : DState) (height : Int)
    (h : s.stagedTransactions ≠ []) :
    ∃ m s2, darksideApplyStaged s height = .err m s2 ∧
      s2.stagedTransactions = s.stagedTransactions := by
  unfold darksideApplyStaged
  by_cases hres : s.resetted
  case neg =>
    rw [if_pos (by simpa using hres)]
    exact ⟨"please call Reset first", s, rfl, rfl⟩
  rw [if_neg (by simpa using hres)]
  rcases hmerge : mergeStagedBlocks s s.stagedBlocks with ⟨s1, e⟩
  have hframe := mergeStagedBlocks_frame s.stagedBlocks s
  rw [hmerge] at hframe
  have hstx : s1.stagedTransactions = s.stagedTransactions := hframe.2.2.1
  cases e with
  | some msg => exact ⟨msg, s1, rfl, hstx⟩
  | none =>
    show ∃ m s2, applyStagedTail height { s1 with stagedBlocks := [] } = .err m s2 ∧
      s2.stagedTransactions = s.stagedTransactions
    unfold applyStagedTail
    simp only
    rcases happ : applyTxs s1.startHeight s1.stagedTransactions s1.activeBlocks with ⟨bs, e2⟩
    cases e2 with
    | some msg => exact ⟨msg, _, rfl, hstx⟩
    | none =>
      have hlen : s1.stagedTransactions.length > 0 := by
        rw [hstx]
        cases hc : s.stagedTransactions with
        | nil => exact absurd hc h
        | cons t ts => simp [hc]
      refine ⟨"one or more transactions have no block",
        { s1 with
          stagedBlocks := []
          activeBlocks := bs }, ?_, ?_⟩
      · simp only [if_pos hlen]
      · exact hstx

/-- Claim C1, counterexample.  In `c1state` the single staged transaction
targets height 0, which lies inside the active range, and the target block's
counter is below the maximum, so the entry is placeable — and indeed the
error state shows it was placed (`c1placedBlock`).  Yet Commit fails (with
the FailedPrecondition-class error), and `stagedTransactions` is not cleared:
both halves of the claim are false on the code. -/
theorem c1_counterexample :
    applyResultTag (darksideApplyStaged c1state 5) = 1 ∧
    applyResultMsg (darksideApplyStaged c1state 5) = "one or more transactions have no block" ∧
    (applyResultState initState (darksideApplyStaged c1state 5)).stagedTransactions =
      [⟨0, [7]⟩] ∧
    ((applyResultState initState (darksideApplyStaged c1state 5)).activeBlocks.getD 0 []).length = 1540 ∧
    getB ((applyResultState initState (darksideApplyStaged c1state 5)).activeBlocks.getD 0 []) 1487 = 1 ∧
    getB ((applyResultState initState (darksideApplyStaged c1state 5)).activeBlocks.getD 0 []) 68 = 1 ∧
    getB ((applyResultState initState (darksideApplyStaged c1state 5)).activeBlocks.getD 0 []) 1539 = 7 := by
  refine ⟨?_, ?_, ?_, ?_, ?_, ?_, ?_⟩ <;> decide

/-- Claim C1 (amended): a Commit succeeds only when no transactions were
staged (and then `stagedTransactions` is trivially empty afterwards); whenever
any transactions are staged, Commit fails — the out-of-range checks return at
the first bad entry without attempting the rest, and even if every entry was
placed the final length check fires — and the error state keeps
`stagedTransactions` uncleared. -/
theorem c1_commit_staged_transactions (s : DState) (height : Int) :
    (∀ s2, darksideApplyStaged s height = .ok s2 →
      s.stagedTransactions = [] ∧ s2.stagedTransactions = []) ∧
    (s.stagedTransactions ≠ [] →
      ∃ m s2, darksideApplyStaged s height = .err m s2 ∧
        s2.stagedTransactions = s.stagedTransactions) := by
  constructor
  · intro s2 hok
    obtain ⟨hres, htx, s1, bs2, hmerge, hsp, hs2⟩ := applyStaged_ok_elim s height s2 hok
    exact ⟨htx, by rw [hs2]⟩
  · exact applyStaged_err_of_stagedTx s height

/-- Claim C1, witness for the amended theorem at `c1state`. -/
theorem c1_commit_staged_transactions_w :
    ∃ m s2, darksideApplyStaged c1state 5 = .err m s2 ∧
      s2.stagedTransactions = c1state.stagedTransactions :=
  (c1_commit_staged_transactions c1state 5).2 (by decide)

/-- Claim C7, counterexample.  The streamed stage-block operation
(`DarksideStageBlockStream`, reached from the gRPC `StageBlocksStream`
handler) performs no `resetted` check: called on the never-reset initial
state it succeeds and stages the block. -/
theorem c7_counterexample :
    initState.resetted = false ∧
    darksideStageBlockStream initState "00" = .ok { initState with stagedBlocks := [[0]] } := by
  exact ⟨rfl, rfl⟩

/-- Claim C7 (amended): Reset discards all active blocks, staged blocks,
staged transactions and incoming transactions and sets `latestHeight` to -1;
before the first Reset every mutating test-control operation fails with the
FailedPrecondition-class error — except the streamed stage-block call, which
does not check `resetted` and stages its block regardless. -/
theorem c7_reset_clears_and_gating (s : DState) (sa height nonce count : Int)
    (bi cn : String) (txBytes : Bytes) (lines : List String) (txHex blockHex : String)
    (h : s.resetted = false) :
    (darksideReset s sa bi cn).activeBlocks = [] ∧
    (darksideReset s sa bi cn).stagedBlocks = [] ∧
    (darksideReset s sa bi cn).stagedTransactions = [] ∧
    (darksideReset s sa bi cn).incomingTransactions = [] ∧
    (darksideReset s sa bi cn).latestHeight = -1 ∧
    darksideStageBlocks s lines = .error "please call Reset first" ∧
    darksideStageBlocksCreate s height nonce count = .error "please call Reset first" ∧
    darksideStageTransaction s height txBytes = .error "please call Reset first" ∧
    darksideApplyStaged s height = .err "please call Reset first" s ∧
    darksideSendTransaction s txHex = .error "please call Reset first" ∧
    (∀ bb, hexDecode blockHex = some bb →
      darksideStageBlockStream s blockHex =
        .ok { s with stagedBlocks := s.stagedBlocks ++ [bb] }) := by
  refine ⟨rfl, rfl, rfl, rfl, rfl, ?_, ?_, ?_, ?_, ?_, ?_⟩
  · simp [darksideStageBlocks, h]
  · simp [darksideStageBlocksCreate, h]
  · simp [darksideStageTransaction, h]
  · simp [darksideApplyStaged, h]
  · simp [darksideSendTransaction, h]
  · intro bb hbb
    simp [darksideStageBlockStream, hbb]

/-- Claim C7, witness for the amended theorem at the initial state. -/
theorem c7_reset_clears_and_gating_w :
    darksideApplyStaged initState 3 = .err "please call Reset first" initState :=
  (c7_reset_clears_and_gating initState 1 3 0 0 "aa" "bb" [] [] "" "00" rfl).2.2.2.2.2.2.2.2.1

theorem eq_ok_of_tag (r : ApplyResult) (d : DState) (h : applyResultTag r = 0) :
    r = .ok (applyResultState d r) := by
  cases r with
  | ok s => rfl
  | err m s => simp [applyResultTag] at h
  | fatal => simp [applyResultTag] at h

theorem eq_err_of_tag (r : ApplyResult) (d : DState) (h : applyResultTag r = 1) :
    r = .err (applyResultMsg r) (applyResultState d r) := by
  cases r with
  | ok s => simp [applyResultTag] at h
  | err m s => rfl
  | fatal => simp [applyResultTag] at h

/-- Claim C6, counterexample.  Reset, stage one block declaring height 10,
commit at height 10 (a perfectly ordinary test sequence).  The resulting
chain is non-empty and the requested height 9 does not exceed
`latestHeight = 10`, so the claim says getblock returns the block hex and the
index is in bounds — but `height - startHeight` is -1 and the read panics. -/
theorem c6_counterexample :
    applyResultTag (darksideApplyStaged c6staged 10) = 0 ∧
    (applyResultState initState (darksideApplyStaged c6staged 10)).activeBlocks.length = 1 ∧
    (applyResultState initState (darksideApplyStaged c6staged 10)).latestHeight = 10 ∧
    (applyResultState initState (darksideApplyStaged c6staged 10)).startHeight = 10 ∧
    darksideGetblock (applyResultState initState (darksideApplyStaged c6staged 10)) 9 = .panic := by
  refine ⟨?_, ?_, ?_, ?_, ?_⟩ <;> decide

/-- Claim C6 (amended): the mock getblock returns the not-found sentinel
exactly when the chain is empty or the height exceeds `latestHeight`;
otherwise it returns the quoted hex of `activeBlocks[height - startHeight]`
provided that index is in bounds (`startHeight ≤ height < startHeight +
len(activeBlocks)`), and panics with an index out of range otherwise — the
in-bounds condition is not implied by `height ≤ latestHeight`. -/
theorem c6_getblock_characterization (s : DState) (height : Int) :
    (darksideGetblock s height = .notFound ↔
      s.activeBlocks.length = 0 ∨ height > s.latestHeight) ∧
    (s.activeBlocks.length ≠ 0 → height ≤ s.latestHeight →
      s.startHeight ≤ height → height < s.startHeight + s.activeBlocks.length →
      darksideGetblock s height =
        .reply ("\"" ++ hexEncode (s.activeBlocks.getD (height - s.startHeight).toNat []) ++ "\"")) ∧
    (s.activeBlocks.length ≠ 0 → height ≤ s.latestHeight →
      (height < s.startHeight ∨ s.startHeight + s.activeBlocks.length ≤ height) →
      darksideGetblock s height = .panic) := by
  refine ⟨?_, ?_, ?_⟩
  · unfold darksideGetblock
    by_cases h0 : s.activeBlocks.length = 0
    · simp [h0]
    · rw [if_neg h0]
      by_cases h1 : height > s.latestHeight
      · simp [h1]
      · rw [if_neg h1]
        constructor
        · intro hr
          by_cases h2 : 0 ≤ height - s.startHeight ∧ (height - s.startHeight).toNat < s.activeBlocks.length
          · rw [if_pos h2] at hr
            exact absurd hr (by simp)
          · rw [if_neg h2] at hr
            exact absurd hr (by simp)
        · intro hr
          exact absurd hr (by simp [h0, h1])
  · intro h0 h1 h2 h3
    unfold darksideGetblock
    rw [if_neg h0, if_neg (by omega)]
    rw [if_pos (by constructor <;> omega)]
  · intro h0 h1 h2
    unfold darksideGetblock
    rw [if_neg h0, if_neg (by omega)]
    rw [if_neg (by intro hc; omega)]

/-- Claim C6, witness for the amended theorem: the reply branch at a concrete
state. -/
theorem c6_getblock_characterization_w :
    darksideGetblock c6replyState 3 =
      .reply ("\"" ++
        hexEncode (c6replyState.activeBlocks.getD ((3 : Int) - c6replyState.startHeight).toNat []) ++
        "\"") :=
  (c6_getblock_characterization c6replyState 3).2.1 (by decide) (by decide) (by decide) (by decide)

theorem getLastD_mem {α : Type} (l : List α) (d : α) (h : l ≠ []) : l.getLastD d ∈ l := by
  rw [List.getLastD_eq_getLast?]
  cases hl : l.getLast? with
  | none => exact absurd (List.getLast?_eq_none_iff.mp hl) h
  | some a =>
    have ha : a ∈ l := by
      have hmem := List.mem_getLast?_eq_getLast (l := l) (x := a) (by simp [hl])
      rcases hmem with ⟨hne, heq⟩
      rw [heq]
      exact List.getLast_mem hne
    simpa using ha

theorem getD_mem_of_lt {α : Type} (l : List α) (i : Nat) (d : α) (h : i < l.length) :
    l.getD i d ∈ l := by
  induction l generalizing i with
  | nil => simp at h
  | cons x xs ih =>
    cases i with
    | zero => simp
    | succ i =>
      have hstep : (x :: xs).getD (i + 1) d = xs.getD i d := rfl
      rw [hstep]
      exact List.mem_cons_of_mem x (ih i (by simpa using Nat.lt_of_succ_lt_succ h))

theorem blockGetHeight_setRange4 (b v : Bytes) (hv : v.length ≤ 32) :
    blockGetHeight (setRange b 4 v) = blockGetHeight b := by
  unfold blockGetHeight
  have hb : ∀ j, 1535 ≤ j → getB (setRange b 4 v) j = getB b j := by
    intro j hj
    rw [getB_setRange]
    have : ¬ (4 ≤ j ∧ j - 4 < v.length ∧ j < b.length) := by
      intro hc
      omega
    rw [if_neg this]
  rw [hb 1535 (by omega), hb 1536 (by omega), hb 1537 (by omega), hb 1538 (by omega)]

theorem addBlockActive_spec (s : DState) (b : Bytes)
    (hp : blockParses b = true) (hap : activeParsesOk s.activeBlocks)
    (hpos : heightsPositional s.startHeight s.activeBlocks) :
    ((blockGetHeight b > s.startHeight + s.activeBlocks.length ∨
        blockGetHeight b < s.startHeight) →
      addBlockActive s b =
        ({ s with startHeight := blockGetHeight b, activeBlocks := [b] }, none)) ∧
    (s.startHeight ≤ blockGetHeight b →
      blockGetHeight b ≤ s.startHeight + s.activeBlocks.length →
      (addBlockActive s b).2 = none ∧
      (addBlockActive s b).1.startHeight = s.startHeight ∧
      ∃ b2, (addBlockActive s b).1.activeBlocks =
          s.activeBlocks.take (blockGetHeight b - s.startHeight).toNat ++ [b2] ∧
        b2.length = b.length ∧ blockGetHeight b2 = blockGetHeight b ∧
        (∀ i, i < (s.activeBlocks.take (blockGetHeight b - s.startHeight).toNat).length →
          blockGetHeight
              ((s.activeBlocks.take (blockGetHeight b - s.startHeight).toNat).getD i []) <
            blockGetHeight b)) := by
  have hbelow : s.startHeight ≤ blockGetHeight b →
      ∀ i, i < (s.activeBlocks.take (blockGetHeight b - s.startHeight).toNat).length →
        blockGetHeight
            ((s.activeBlocks.take (blockGetHeight b - s.startHeight).toNat).getD i []) <
          blockGetHeight b := by
    intro hge i hi
    have hlen : (s.activeBlocks.take (blockGetHeight b - s.startHeight).toNat).length =
        min (blockGetHeight b - s.startHeight).toNat s.activeBlocks.length := by
      simp
    rw [hlen] at hi
    rw [getD_take_generic _ _ _ _ (by omega)]
    rw [hpos i (by omega)]
    omega
  constructor
  · intro hdis
    unfold addBlockActive
    rw [if_neg (by simp [hp])]
    unfold truncateForHeight
    rcases hdis with hhigh | hlow
    · rw [if_pos (by exact_mod_cast hhigh)]
      unfold appendActive
      rw [if_pos (by simp)]
    · rw [if_neg (by push_neg; exact_mod_cast le_of_lt (lt_of_lt_of_le hlow (by omega))),
        if_pos hlow]
      unfold appendActive
      rw [if_pos (by simp)]
  · intro hge hle
    unfold addBlockActive
    rw [if_neg (by simp [hp])]
    unfold truncateForHeight
    rw [if_neg (by push_neg; exact_mod_cast hle), if_neg (by push_neg; exact hge)]
    unfold appendActive
    by_cases hempty :
        (s.activeBlocks.take (blockGetHeight b - s.startHeight).toNat).length = 0
    · rw [if_pos (by simpa using hempty)]
      have hstart : blockGetHeight b = s.startHeight := by
        have : min (blockGetHeight b - s.startHeight).toNat s.activeBlocks.length = 0 := by
          simpa using hempty
        omega
      refine ⟨rfl, hstart, b, ?_, rfl, rfl, hbelow hge⟩
      rw [List.length_eq_zero] at hempty
      rw [hempty]
      rfl
    · rw [if_neg (by simpa using hempty)]
      have hne : s.activeBlocks.take (blockGetHeight b - s.startHeight).toNat ≠ [] := by
        intro hc
        rw [hc] at hempty
        exact hempty rfl
      have hprevmem :
          (s.activeBlocks.take (blockGetHeight b - s.startHeight).toNat).getLastD [] ∈
            s.activeBlocks :=
        List.take_subset _ _ (getLastD_mem _ [] hne)
      have hprevparse := hap _ hprevmem
      rw [if_neg (by simpa using hprevparse)]
      refine ⟨rfl, rfl,
        setRange b 4 (blockHash ((s.activeBlocks.take
          (blockGetHeight b - s.startHeight).toNat).getLastD [])), rfl,
        length_setRange _ _ _, ?_, hbelow hge⟩
      apply blockGetHeight_setRange4
      simp [blockHash, digest32]

/-- Claim C5: for a staged block merged by Commit via `addBlockActive` (so it
parses), writing `h` for its declared height: if `h` lies inside
`[startHeight, startHeight + len]`, the active sequence is truncated to the
blocks strictly below `h` (positionally, and by the positional-height
invariant also by height) before the block is appended (with its prev-hash
patched, leaving its length and height unchanged); if `h` is discontiguous,
the entire prior active sequence is discarded and `startHeight` becomes `h`. -/
theorem c5_reorg_semantics (s : DState) (b : Bytes)
    (hp : blockParses b = true) (hap : activeParsesOk s.activeBlocks)
    (hpos : heightsPositional s.startHeight s.activeBlocks) :
    ((blockGetHeight b > s.startHeight + s.activeBlocks.length ∨
        blockGetHeight b < s.startHeight) →
      addBlockActive s b =
        ({ s with startHeight := blockGetHeight b, activeBlocks := [b] }, none)) ∧
    (s.startHeight ≤ blockGetHeight b →
      blockGetHeight b ≤ s.startHeight + s.activeBlocks.length →
      (addBlockActive s b).2 = none ∧
      (addBlockActive s b).1.startHeight = s.startHeight ∧
      ∃ b2, (addBlockActive s b).1.activeBlocks =
          s.activeBlocks.take (blockGetHeight b - s.startHeight).toNat ++ [b2] ∧
        b2.length = b.length ∧ blockGetHeight b2 = blockGetHeight b ∧
        (∀ i, i < (s.activeBlocks.take (blockGetHeight b - s.startHeight).toNat).length →
          blockGetHeight
              ((s.activeBlocks.take (blockGetHeight b - s.startHeight).toNat).getD i []) <
            blockGetHeight b)) :=
  addBlockActive_spec s b hp hap hpos

/-- Claim C5, witness: a block of height 10 staged onto an empty active range
(10 is discontiguous there), at a freshly reset state. -/
theorem c5_reorg_semantics_w :
    addBlockActive (darksideReset initState 0 "aa" "bb") blk10 =
      ({ darksideReset initState 0 "aa" "bb" with
          startHeight := blockGetHeight blk10
          activeBlocks := [blk10] }, none) :=
  (c5_reorg_semantics (darksideReset initState 0 "aa" "bb") blk10 (by decide)
    (by intro b hb; exact absurd hb (List.not_mem_nil b))
    (by intro i hi; exact absurd hi (Nat.not_lt_zero i))).1 (by decide)

theorem extract_append_self (a t : Bytes) : extract (a ++ t) a.length t.length = t := by
  unfold extract
  have hp : ∀ k, k < t.length → getB (a ++ t) (a.length + k) = getB t k := by
    intro k hk
    unfold getB
    rw [getD_append_right_generic _ a t _ (Nat.le_add_right _ _)]
    congr 1
    omega
  calc (List.range t.length).map (fun k => getB (a ++ t) (a.length + k))
      = (List.range t.length).map (fun k => getB t k) := by
        apply List.map_congr_left
        intro k hk
        exact hp k (List.mem_range.mp hk)
    _ = t := extract_eq_self t t.length rfl

theorem applyTxs_single (start : Int) (tx : StagedTx) (bs : List Bytes) :
    applyTxs start [tx] bs =
      if tx.height < start then (bs, some "transaction height too low")
      else if tx.height ≥ start + bs.length then (bs, some "transaction height too high")
      else if getB (bs.getD (tx.height - start).toNat []) 1487 = 253 then
        (bs, some "too many transactions in a block (max 253)")
      else
        (bs.set (tx.height - start).toNat
          (placeTxInBlock (bs.getD (tx.height - start).toNat []) tx.txBytes), none) := by
  unfold applyTxs
  split
  · rfl
  · split
    · rfl
    · split <;> rfl

theorem applyStagedTail_eq (height : Int) (s : DState) (bs : List Bytes) (e : Option String)
    (happ : applyTxs s.startHeight s.stagedTransactions s.activeBlocks = (bs, e)) :
    applyStagedTail height s =
      match e with
      | some m => .err m { s with activeBlocks := bs }
      | none =>
        if s.stagedTransactions.length > 0 then
          .err "one or more transactions have no block" { s with activeBlocks := bs }
        else
          match setPrevhashGo bs (zeros 32) with
          | none => .fatal
          | some bs2 =>
            .ok { s with
              stagedTransactions := []
              activeBlocks := bs2
              latestHeight := height } := by
  unfold applyStagedTail
  simp only [happ]
  cases e with
  | some m => rfl
  | none => rfl

theorem placeTxInBlock_length (blk txb : Bytes) :
    (placeTxInBlock blk txb).length = blk.length + txb.length := by
  simp [placeTxInBlock, length_setB]

theorem placeTxInBlock_payload (blk txb : Bytes) :
    extract (placeTxInBlock blk txb) blk.length txb.length = txb := by
  unfold placeTxInBlock
  have hAlen : ((setB (setB blk 1487 ((getB blk 1487 + 1) % 256)) 68
      ((getB (setB blk 1487 ((getB blk 1487 + 1) % 256)) 68 + 1) % 256))).length =
      blk.length := by
    simp [length_setB]
  rw [← hAlen]
  exact extract_append_self _ _

theorem getB_append_left (a t : Bytes) (j : Nat) (h : j < a.length) :
    getB (a ++ t) j = getB a j := getD_append_left_generic 0 a t j h

theorem placeTxInBlock_counter (blk txb : Bytes) (hlen : 1488 ≤ blk.length) :
    getB (placeTxInBlock blk txb) 1487 = (getB blk 1487 + 1) % 256 := by
  unfold placeTxInBlock
  rw [getB_append_left _ _ _ (by simp only [length_setB]; omega)]
  rw [getB_setB, if_neg (by intro hcc; omega)]
  rw [getB_setB, if_pos ⟨rfl, by omega⟩]

theorem placeTxInBlock_perturb (blk txb : Bytes) (hlen : 1488 ≤ blk.length) :
    getB (placeTxInBlock blk txb) 68 = (getB blk 68 + 1) % 256 := by
  unfold placeTxInBlock
  rw [getB_append_left _ _ _ (by simp only [length_setB]; omega)]
  rw [getB_setB, if_pos ⟨rfl, by simp only [length_setB]; omega⟩]
  rw [getB_setB, if_neg (by intro hcc; omega)]

/-- Claim C4: in a Commit over one staged transaction and no staged blocks
(on a resetted state whose active blocks all parse), with `i` the target
index `(tx.height - startHeight).toNat` and `blk` the block there: a target
height below `startHeight` or at/above `startHeight + len(activeBlocks)`
makes Commit fail with the OutOfRange-class error (leaving the state
unchanged); a target block whose counter byte holds 253 makes Commit fail
with the ResourceExhausted-class error; otherwise the transaction's raw bytes
are appended to that block's payload, its transaction-count byte becomes
`(old+1) % 256` — an increment by exactly 1 for every counter value below
255, in particular throughout the spec's 0..253 counter range — the
perturbation byte 68 is bumped likewise, and no other block changes. -/
theorem c4_transaction_placement (s : DState) (tx : StagedTx) (height : Int)
    (hres : s.resetted = true) (hsb : s.stagedBlocks = [])
    (hst : s.stagedTransactions = [tx]) (hap : activeParsesOk s.activeBlocks) :
    (tx.height < s.startHeight →
      darksideApplyStaged s height = .err "transaction height too low" s) ∧
    (tx.height ≥ s.startHeight + s.activeBlocks.length →
      darksideApplyStaged s height = .err "transaction height too high" s) ∧
    (s.startHeight ≤ tx.height →
      tx.height < s.startHeight + s.activeBlocks.length →
      (getB (s.activeBlocks.getD (tx.height - s.startHeight).toNat []) 1487 = 253 →
        darksideApplyStaged s height =
          .err "too many transactions in a block (max 253)" s) ∧
      (getB (s.activeBlocks.getD (tx.height - s.startHeight).toNat []) 1487 ≠ 253 →
        ∃ s2, darksideApplyStaged s height =
            .err "one or more transactions have no block" s2 ∧
          s2.activeBlocks = s.activeBlocks.set (tx.height - s.startHeight).toNat
            (placeTxInBlock (s.activeBlocks.getD (tx.height - s.startHeight).toNat [])
              tx.txBytes) ∧
          s2.activeBlocks.length = s.activeBlocks.length ∧
          (∀ j, j < s.activeBlocks.length → j ≠ (tx.height - s.startHeight).toNat →
            s2.activeBlocks.getD j [] = s.activeBlocks.getD j []) ∧
          s2.activeBlocks.getD (tx.height - s.startHeight).toNat [] =
            placeTxInBlock (s.activeBlocks.getD (tx.height - s.startHeight).toNat [])
              tx.txBytes ∧
          (placeTxInBlock (s.activeBlocks.getD (tx.height - s.startHeight).toNat [])
              tx.txBytes).length =
            (s.activeBlocks.getD (tx.height - s.startHeight).toNat []).length +
              tx.txBytes.length ∧
          extract (placeTxInBlock (s.activeBlocks.getD (tx.height - s.startHeight).toNat [])
              tx.txBytes)
            (s.activeBlocks.getD (tx.height - s.startHeight).toNat []).length
            tx.txBytes.length = tx.txBytes ∧
          getB (placeTxInBlock (s.activeBlocks.getD (tx.height - s.startHeight).toNat [])
              tx.txBytes) 1487 =
            (getB (s.activeBlocks.getD (tx.height - s.startHeight).toNat []) 1487 + 1) % 256 ∧
          (getB (s.activeBlocks.getD (tx.height - s.startHeight).toNat []) 1487 < 255 →
            getB (placeTxInBlock (s.activeBlocks.getD (tx.height - s.startHeight).toNat [])
                tx.txBytes) 1487 =
              getB (s.activeBlocks.getD (tx.height - s.startHeight).toNat []) 1487 + 1) ∧
          getB (placeTxInBlock (s.activeBlocks.getD (tx.height - s.startHeight).toNat [])
              tx.txBytes) 68 =
            (getB (s.activeBlocks.getD (tx.height - s.startHeight).toNat []) 68 + 1) % 256)) := by
  have heta : ({ s with stagedBlocks := ([] : List Bytes) } : DState) = s := by
    rw [← hsb]
  have h0 : darksideApplyStaged s height = applyStagedTail height s := by
    unfold darksideApplyStaged
    rw [if_neg (by simp [hres]), hsb]
    show applyStagedTail height { s with stagedBlocks := [] } = applyStagedTail height s
    rw [heta]
  refine ⟨?_, ?_, ?_⟩
  · intro h1
    have happ2 : applyTxs s.startHeight s.stagedTransactions s.activeBlocks =
        (s.activeBlocks, some "transaction height too low") := by
      rw [hst, applyTxs_single, if_pos h1]
    rw [h0, applyStagedTail_eq height s _ _ happ2]
  · intro h1
    have hnotlow : ¬ tx.height < s.startHeight := by
      have hlen : (0 : Int) ≤ s.activeBlocks.length := by positivity
      omega
    have happ2 : applyTxs s.startHeight s.stagedTransactions s.activeBlocks =
        (s.activeBlocks, some "transaction height too high") := by
      rw [hst, applyTxs_single, if_neg hnotlow, if_pos h1]
    rw [h0, applyStagedTail_eq height s _ _ happ2]
  · intro hge hlt
    have hnotlow : ¬ tx.height < s.startHeight := by omega
    have hnothigh : ¬ tx.height ≥ s.startHeight + (s.activeBlocks.length : Int) := by omega
    have hilt : (tx.height - s.startHeight).toNat < s.activeBlocks.length := by omega
    constructor
    · intro hc
      have happ2 : applyTxs s.startHeight s.stagedTransactions s.activeBlocks =
          (s.activeBlocks, some "too many transactions in a block (max 253)") := by
        rw [hst, applyTxs_single, if_neg hnotlow, if_neg hnothigh, if_pos hc]
      rw [h0, applyStagedTail_eq height s _ _ happ2]
    · intro hc
      have hblkmem : s.activeBlocks.getD (tx.height - s.startHeight).toNat [] ∈
          s.activeBlocks := getD_mem_of_lt _ _ _ hilt
      have hblen : 1539 ≤ (s.activeBlocks.getD (tx.height - s.startHeight).toNat []).length := by
        have := hap _ hblkmem
        simpa [blockParses] using this
      have happ2 : applyTxs s.startHeight s.stagedTransactions s.activeBlocks =
          (s.activeBlocks.set (tx.height - s.startHeight).toNat
            (placeTxInBlock (s.activeBlocks.getD (tx.height - s.startHeight).toNat [])
              tx.txBytes), none) := by
        rw [hst, applyTxs_single, if_neg hnotlow, if_neg hnothigh, if_neg hc]
      rw [h0, applyStagedTail_eq height s _ _ happ2]
      simp only [hst]
      rw [if_pos (by simp)]
      refine ⟨_, rfl, rfl, by simp, ?_, ?_, placeTxInBlock_length _ _,
        placeTxInBlock_payload _ _, placeTxInBlock_counter _ _ (by omega), ?_,
        placeTxInBlock_perturb _ _ (by omega)⟩
      · intro j hj hji
        show (s.activeBlocks.set (tx.height - s.startHeight).toNat
          (placeTxInBlock (s.activeBlocks.getD (tx.height - s.startHeight).toNat [])
            tx.txBytes)).getD j [] = s.activeBlocks.getD j []
        rw [getD_set_generic, if_neg (by intro hcc; exact hji hcc.1.symm)]
      · show (s.activeBlocks.set (tx.height - s.startHeight).toNat
          (placeTxInBlock (s.activeBlocks.getD (tx.height - s.startHeight).toNat [])
            tx.txBytes)).getD (tx.height - s.startHeight).toNat [] = _
        rw [getD_set_generic, if_pos ⟨rfl, hilt⟩]
      · intro h255
        rw [placeTxInBlock_counter _ _ (by omega)]
        omega

/-- Claim C4, witness: a staged transaction targeting height -1 while the
active range starts at 0 fails with the height-too-low error. -/
theorem c4_transaction_placement_w :
    darksideApplyStaged c4lowState 5 = .err "transaction height too low" c4lowState :=
  (c4_transaction_placement c4lowState ⟨-1, [9]⟩ 5 rfl rfl rfl
    (by intro b hb
        have hact : c4lowState.activeBlocks = [emptyBlock1539] := rfl
        rw [hact, List.mem_singleton] at hb
        subst hb
        decide)).1 (by decide)

theorem digest32_length (seed : Nat) (b : Bytes) : (digest32 seed b).length = 32 := by
  simp [digest32]

theorem blockHash_length (b : Bytes) : (blockHash b).length = 32 := digest32_length _ _

theorem setPrevhashGo_chain (bs : List Bytes) : ∀ (ph : Bytes) (l : List Bytes),
    ph.length = 32 → setPrevhashGo bs ph = some l → chainedFrom ph l := by
  induction bs with
  | nil =>
    intro ph l hph h
    simp only [setPrevhashGo, Option.some.injEq] at h
    subst h
    exact trivial
  | cons b rest ih =>
    intro ph l hph h
    unfold setPrevhashGo at h
    by_cases hp : blockParses b = true
    case neg =>
      rw [if_pos hp] at h
      exact absurd h (by simp)
    rw [if_neg (by simp [hp])] at h
    rcases hsp : setPrevhashGo rest (blockHash (setRange b 4 ph)) with _ | l2
    · rw [hsp] at h
      simp at h
    · rw [hsp] at h
      simp only [Option.some.injEq] at h
      subst h
      constructor
      · apply extract_setRange_self
        · exact hph
        · have hb : 1539 ≤ b.length := by simpa [blockParses] using hp
          omega
      · exact ih _ _ (blockHash_length _) hsp

theorem chainedFrom_indexed (l : List Bytes) : ∀ ph, chainedFrom ph l →
    (0 < l.length → extract (l.getD 0 []) 4 32 = ph) ∧
    (∀ i, i < l.length - 1 → extract (l.getD (i + 1) []) 4 32 = blockHash (l.getD i [])) := by
  induction l with
  | nil =>
    intro ph h
    constructor
    · intro h0
      simp at h0
    · intro i hi
      simp at hi
  | cons b rest ih =>
    intro ph h
    rcases h with ⟨h1, h2⟩
    have ihr := ih (blockHash b) h2
    constructor
    · intro _
      exact h1
    · intro i hi
      cases i with
      | zero =>
        have h0 : 0 < rest.length := by
          simpa using hi
        exact ihr.1 h0
      | succ i =>
        have hi2 : i < rest.length - 1 := by
          simp only [List.length_cons] at hi
          omega
        exact ihr.2 i hi2

/-- Claim C2: after every successful Commit the active chain is hash-linked —
the first block's prev-hash field (bytes 4..35) is all zero, and each later
block's prev-hash field equals the hash of its predecessor as that
predecessor finally stands. -/
theorem c2_hash_chained (s : DState) (height : Int) (s2 : DState)
    (h : darksideApplyStaged s height = .ok s2) :
    hashChained s2.activeBlocks := by
  obtain ⟨hres, htx, s1, bs2, hmerge, hsp, hs2⟩ := applyStaged_ok_elim s height s2 h
  have hchain := setPrevhashGo_chain s1.activeBlocks (zeros 32) bs2 (by simp [zeros]) hsp
  have hidx := chainedFrom_indexed bs2 (zeros 32) hchain
  rw [hs2]
  exact ⟨hidx.1, hidx.2⟩

/-- Claim C2, witness: committing a resetted state holding two parsed blocks
succeeds and the theorem yields the chain property for the result. -/
theorem c2_hash_chained_w :
    hashChained (applyResultState initState (darksideApplyStaged c2state 7)).activeBlocks :=
  c2_hash_chained c2state 7 _ (eq_ok_of_tag _ initState (by decide))

theorem addBlockActive_preserves (s : DState) (b : Bytes) (s1 : DState)
    (h : addBlockActive s b = (s1, none))
    (hap : activeParsesOk s.activeBlocks)
    (hpos : heightsPositional s.startHeight s.activeBlocks) :
    activeParsesOk s1.activeBlocks ∧ heightsPositional s1.startHeight s1.activeBlocks := by
  have hp : blockParses b = true := by
    by_contra hnp
    unfold addBlockActive at h
    rw [if_pos (by simpa using hnp)] at h
    simp at h
  have hspec := addBlockActive_spec s b hp hap hpos
  by_cases hge : s.startHeight ≤ blockGetHeight b
  case neg =>
    have hdis := hspec.1 (Or.inr (by omega))
    rw [h] at hdis
    have hs1 : s1 = { s with startHeight := blockGetHeight b, activeBlocks := [b] } :=
      (Prod.mk.injEq _ _ _ _).mp hdis |>.1
    subst hs1
    refine ⟨?_, ?_⟩
    · intro c hc
      rw [List.mem_singleton] at hc
      subst hc
      exact hp
    · intro i hi
      have hi0 : i = 0 := by
        simpa using hi
      subst hi0
      simp
  by_cases hle : blockGetHeight b ≤ s.startHeight + s.activeBlocks.length
  case neg =>
    have hdis := hspec.1 (Or.inl (by omega))
    rw [h] at hdis
    have hs1 : s1 = { s with startHeight := blockGetHeight b, activeBlocks := [b] } :=
      (Prod.mk.injEq _ _ _ _).mp hdis |>.1
    subst hs1
    refine ⟨?_, ?_⟩
    · intro c hc
      rw [List.mem_singleton] at hc
      subst hc
      exact hp
    · intro i hi
      have hi0 : i = 0 := by
        simpa using hi
      subst hi0
      simp
  obtain ⟨hnone, hstart, b2, hblocks, hlen2, hh2, hbelow⟩ := hspec.2 hge hle
  rw [h] at hblocks hstart
  have hk : ((blockGetHeight b - s.startHeight).toNat : Int) =
      blockGetHeight b - s.startHeight := by omega
  have hklen : (s.activeBlocks.take (blockGetHeight b - s.startHeight).toNat).length =
      (blockGetHeight b - s.startHeight).toNat := by
    simp only [List.length_take]
    omega
  constructor
  · intro c hc
    rw [hblocks] at hc
    rcases List.mem_append.mp hc with hc1 | hc2
    · exact hap c (List.take_subset _ _ hc1)
    · rw [List.mem_singleton] at hc2
      subst hc2
      have hb : 1539 ≤ b.length := by simpa [blockParses] using hp
      simp only [blockParses, decide_eq_true_eq]
      omega
  · intro i hi
    rw [hblocks] at hi ⊢
    rw [hstart]
    by_cases hik : i < (blockGetHeight b - s.startHeight).toNat
    · rw [getD_append_left_generic _ _ _ _ (by omega)]
      rw [getD_take_generic _ _ _ _ hik]
      exact hpos i (by omega)
    · have hieq : i = (blockGetHeight b - s.startHeight).toNat := by
        simp only [List.length_append, hklen, List.length_singleton] at hi
        omega
      subst hieq
      rw [getD_append_right_generic _ _ _ _ (by omega)]
      rw [hklen]
      have hz : (blockGetHeight b - s.startHeight).toNat -
          (blockGetHeight b - s.startHeight).toNat = 0 := by omega
      rw [hz]
      have hstep : ([b2] : List Bytes).getD 0 [] = b2 := rfl
      rw [hstep, hh2]
      omega

theorem setPrevhashGo_preserves (bs : List Bytes) : ∀ (ph : Bytes) (l : List Bytes) (start : Int),
    ph.length = 32 → setPrevhashGo bs ph = some l →
    (∀ i, i < bs.length → blockGetHeight (bs.getD i []) = start + i) →
    l.length = bs.length ∧
    (∀ i, i < l.length → blockGetHeight (l.getD i []) = start + i) := by
  induction bs with
  | nil =>
    intro ph l start hph h hpos
    simp only [setPrevhashGo, Option.some.injEq] at h
    subst h
    refine ⟨rfl, ?_⟩
    intro i hi
    simp at hi
  | cons b rest ih =>
    intro ph l start hph h hpos
    unfold setPrevhashGo at h
    by_cases hp : blockParses b = true
    case neg =>
      rw [if_pos hp] at h
      exact absurd h (by simp)
    rw [if_neg (by simp [hp])] at h
    rcases hsp : setPrevhashGo rest (blockHash (setRange b 4 ph)) with _ | l2
    · rw [hsp] at h
      simp at h
    · rw [hsp] at h
      simp only [Option.some.injEq] at h
      subst h
      have hposr : ∀ i, i < rest.length → blockGetHeight (rest.getD i []) = (start + 1) + i := by
        intro i hi
        have hstep : (b :: rest).getD (i + 1) ([] : Bytes) = rest.getD i [] := rfl
        have := hpos (i + 1) (by simpa using Nat.succ_lt_succ hi)
        rw [hstep] at this
        rw [this]
        push_cast
        ring
      have hrest := ih (blockHash (setRange b 4 ph)) l2 (start + 1) (blockHash_length _)
        hsp hposr
      refine ⟨by simp [hrest.1], ?_⟩
      intro i hi
      cases i with
      | zero =>
        have hb0 := hpos 0 (by simp)
        have hstep0 : (b :: rest).getD 0 ([] : Bytes) = b := rfl
        rw [hstep0] at hb0
        have hhr : blockGetHeight (setRange b 4 ph) = blockGetHeight b :=
          blockGetHeight_setRange4 b ph (by omega)
        have hstep2 : (setRange b 4 ph :: l2).getD 0 ([] : Bytes) = setRange b 4 ph := rfl
        rw [hstep2, hhr, hb0]
      | succ i =>
        have hi2 : i < l2.length := by simpa using Nat.lt_of_succ_lt_succ hi
        have hstep : (setRange b 4 ph :: l2).getD (i + 1) ([] : Bytes) = l2.getD i [] := rfl
        rw [hstep, hrest.2 i hi2]
        push_cast
        ring

theorem mergeStagedBlocks_preserves (bs : List Bytes) : ∀ (s s1 : DState),
    mergeStagedBlocks s bs = (s1, none) →
    activeParsesOk s.activeBlocks → heightsPositional s.startHeight s.activeBlocks →
    activeParsesOk s1.activeBlocks ∧ heightsPositional s1.startHeight s1.activeBlocks := by
  induction bs with
  | nil =>
    intro s s1 h hap hpos
    simp only [mergeStagedBlocks, Prod.mk.injEq] at h
    rw [← h.1]
    exact ⟨hap, hpos⟩
  | cons b rest ih =>
    intro s s1 h hap hpos
    unfold mergeStagedBlocks at h
    rcases hadd : addBlockActive s b with ⟨sm, e⟩
    rw [hadd] at h
    cases e with
    | some m => simp at h
    | none =>
      have hm := addBlockActive_preserves s b sm hadd hap hpos
      exact ih sm s1 h hm.1 hm.2

/-- Claim C10: the positional-height invariant — the block at index `i` of
`activeBlocks` declares height `startHeight + i` — is preserved by every
successful `addBlockActive` call (for blocks that parse, on states whose
active blocks parse), and consequently holds after every successful Commit
from a state satisfying it. -/
theorem c10_positional_heights :
    (∀ s b s1, addBlockActive s b = (s1, none) →
      activeParsesOk s.activeBlocks → heightsPositional s.startHeight s.activeBlocks →
      activeParsesOk s1.activeBlocks ∧ heightsPositional s1.startHeight s1.activeBlocks) ∧
    (∀ s height s2, darksideApplyStaged s height = .ok s2 →
      activeParsesOk s.activeBlocks → heightsPositional s.startHeight s.activeBlocks →
      heightsPositional s2.startHeight s2.activeBlocks) := by
  refine ⟨addBlockActive_preserves, ?_⟩
  intro s height s2 h hap hpos
  obtain ⟨hres, htx, s1, bs2, hmerge, hsp, hs2⟩ := applyStaged_ok_elim s height s2 h
  have hm := mergeStagedBlocks_preserves s.stagedBlocks s s1 hmerge hap hpos
  have hsp2 := setPrevhashGo_preserves s1.activeBlocks (zeros 32) bs2 s1.startHeight
    (by simp [zeros]) hsp hm.2
  rw [hs2]
  exact hsp2.2

/-- Claim C10, witness: a commit of a state holding one height-0 block at
`startHeight = 0`. -/
theorem c10_positional_heights_w :
    heightsPositional
      (applyResultState initState (darksideApplyStaged c10state 3)).startHeight
      (applyResultState initState (darksideApplyStaged c10state 3)).activeBlocks :=
  c10_positional_heights.2 c10state 3 _ (eq_ok_of_tag _ initState (by decide))
    (by intro b hb
        have hact : c10state.activeBlocks = [emptyBlock1539] := rfl
        rw [hact, List.mem_singleton] at hb
        subst hb
        decide)
    (by intro i hi
        have hl : c10state.activeBlocks.length = 1 := rfl
        rw [hl] at hi
        have hi0 : i = 0 := by omega
        subst hi0
        decide)

theorem hexVal_hexChar : ∀ n, n < 16 → hexVal (hexChar n) = some n := by decide

theorem hexDecodeChars_hexPair_cons (b : Nat) (R : List Char) (hb : b < 256) :
    hexDecodeChars (hexPair b ++ R) = (hexDecodeChars R).map (fun r => b :: r) := by
  have hshape : hexDecodeChars (hexPair b ++ R) =
      match hexVal (hexChar (b / 16 % 16)), hexVal (hexChar (b % 16)), hexDecodeChars R with
      | some hi, some lo, some bs => some ((16 * hi + lo) :: bs)
      | _, _, _ => none := rfl
  rw [hshape, hexVal_hexChar _ (by omega), hexVal_hexChar _ (by omega)]
  have hval : 16 * (b / 16 % 16) + b % 16 = b := by omega
  rcases hR : hexDecodeChars R with _ | bs
  · rfl
  · simp [hval]

theorem hexDecodeChars_hexPairs (l : Bytes) : ∀ (R : List Char), (∀ b ∈ l, b < 256) →
    hexDecodeChars (l.foldr (fun b acc => hexPair b ++ acc) R) =
      (hexDecodeChars R).map (fun r => l ++ r) := by
  induction l with
  | nil =>
    intro R hl
    rcases hR : hexDecodeChars R with _ | bs <;> simp [hR]
  | cons b rest ih =>
    intro R hl
    show hexDecodeChars (hexPair b ++ rest.foldr (fun b acc => hexPair b ++ acc) R) = _
    rw [hexDecodeChars_hexPair_cons _ _ (hl b (by simp))]
    rw [ih R (by intro x hx; exact hl x (by simp [hx]))]
    rcases hR : hexDecodeChars R with _ | bs <;> simp [hR]

theorem foldr_hexPair_append (l : Bytes) (R : List Char) :
    l.foldr (fun b acc => hexPair b ++ acc) [] ++ R =
      l.foldr (fun b acc => hexPair b ++ acc) R := by
  induction l with
  | nil => rfl
  | cons b rest ih =>
    show (hexPair b ++ rest.foldr (fun b acc => hexPair b ++ acc) []) ++ R = _
    rw [List.append_assoc, ih]
    rfl

theorem le4_bytes_lt (h : Int) : ∀ b ∈ le4 h, b < 256 := by
  intro b hb
  have hb2 : b = (h % 4294967296).toNat % 256 ∨
      b = (h % 4294967296).toNat / 256 % 256 ∨
      b = (h % 4294967296).toNat / 65536 % 256 ∨
      b = (h % 4294967296).toNat / 16777216 % 256 := by
    simpa [le4] using hb
  rcases hb2 with hb2 | hb2 | hb2 | hb2 <;> subst hb2 <;> omega

theorem fakeCoinbaseBytesAt_eq (h : Int) :
    fakeCoinbaseBytesAt h = cbPrefixBytes ++ (le4 h ++ cbSuffixBytes) := by
  have hfind : findSub ("d12c0c00".data) fakeCoinbaseHex.data = some 94 := by decide
  have hpfx : fakeCoinbaseHex.data.take 94 =
      cbPrefixBytes.foldr (fun b acc => hexPair b ++ acc) [] := by decide
  have hsfx : hexDecodeChars (fakeCoinbaseHex.data.drop 102) = some cbSuffixBytes := by decide
  have hcb : ∀ b ∈ cbPrefixBytes, b < 256 := by decide
  have hlt : ∀ b ∈ cbPrefixBytes ++ le4 h, b < 256 := by
    intro b hb
    rcases List.mem_append.mp hb with hb | hb
    · exact hcb b hb
    · exact le4_bytes_lt h b hb
  have hrepl0 : replaceOnce fakeCoinbaseHex.data ("d12c0c00".data) (hexLE4 h) =
      fakeCoinbaseHex.data.take 94 ++ hexLE4 h ++ fakeCoinbaseHex.data.drop 102 := by
    unfold replaceOnce
    rw [hfind]
    rfl
  have harg : fakeCoinbaseHex.data.take 94 ++ hexLE4 h ++ fakeCoinbaseHex.data.drop 102 =
      (cbPrefixBytes ++ le4 h).foldr (fun b acc => hexPair b ++ acc)
        (fakeCoinbaseHex.data.drop 102) := by
    rw [List.foldr_append, hpfx, List.append_assoc]
    rw [show hexLE4 h ++ fakeCoinbaseHex.data.drop 102 =
        (le4 h).foldr (fun b acc => hexPair b ++ acc) (fakeCoinbaseHex.data.drop 102) from
      foldr_hexPair_append (le4 h) _]
    exact foldr_hexPair_append cbPrefixBytes _
  unfold fakeCoinbaseBytesAt
  rw [hrepl0, harg, hexDecodeChars_hexPairs _ _ hlt, hsfx]
  simp [List.append_assoc]

theorem fakeHeaderBytes_length (h n : Int) : (fakeHeaderBytes h n).length = 1487 := by
  unfold fakeHeaderBytes
  simp [zeros, fakeMerkleRoot, digest32]

theorem range_map_getD {α : Type} (f : Nat → α) (d : α) (n i : Nat) (hi : i < n) :
    ((List.range n).map f).getD i d = f i := by
  rw [List.getD_eq_getElem _ _ (by simpa using hi)]
  simp only [List.getElem_map, List.getElem_range]

theorem createFakeBlocks_getD (height nonce count : Int) (i : Nat) (hi : i < count.toNat) :
    (createFakeBlocks height nonce count).getD i [] = mkDarksideBlock (height + i) nonce := by
  unfold createFakeBlocks
  exact range_map_getD _ _ _ _ hi

/-- Claim C9: the synthetic block builder is deterministic — two calls of
`DarksideStageBlocksCreate` with identical `(height, nonce, count)` append
byte-identical block sequences to the staging area, whatever the two prior
states were; and the `i`-th produced block is the fixed header for height
`height+i`, a transaction count byte of exactly 1 (one coinbase transaction,
read back at offset 1487), and the coinbase template with the 4-byte
little-endian encoding of `height+i` patched at its fixed offset (47 bytes
into the coinbase). -/
theorem c9_builder_determinism (s1 s2 : DState) (height nonce count : Int)
    (r1 r2 : DState)
    (h1 : darksideStageBlocksCreate s1 height nonce count = .ok r1)
    (h2 : darksideStageBlocksCreate s2 height nonce count = .ok r2) :
    r1.stagedBlocks.drop s1.stagedBlocks.length =
      r2.stagedBlocks.drop s2.stagedBlocks.length ∧
    r1.stagedBlocks.drop s1.stagedBlocks.length = createFakeBlocks height nonce count ∧
    (∀ i, i < count.toNat →
      (createFakeBlocks height nonce count).getD i [] =
        fakeHeaderBytes (height + i) nonce ++ 1 ::
          (cbPrefixBytes ++ (le4 (height + i) ++ cbSuffixBytes)) ∧
      getB ((createFakeBlocks height nonce count).getD i []) 1487 = 1) := by
  have hr1 : r1.stagedBlocks = s1.stagedBlocks ++ createFakeBlocks height nonce count := by
    unfold darksideStageBlocksCreate at h1
    by_cases hres : s1.resetted
    · rw [if_neg (by simpa using hres)] at h1
      simp only [Except.ok.injEq] at h1
      rw [← h1]
    · rw [if_pos (by simpa using hres)] at h1
      exact absurd h1 (by simp)
  have hr2 : r2.stagedBlocks = s2.stagedBlocks ++ createFakeBlocks height nonce count := by
    unfold darksideStageBlocksCreate at h2
    by_cases hres : s2.resetted
    · rw [if_neg (by simpa using hres)] at h2
      simp only [Except.ok.injEq] at h2
      rw [← h2]
    · rw [if_pos (by simpa using hres)] at h2
      exact absurd h2 (by simp)
  have hd1 : r1.stagedBlocks.drop s1.stagedBlocks.length = createFakeBlocks height nonce count := by
    rw [hr1, List.drop_left]
  have hd2 : r2.stagedBlocks.drop s2.stagedBlocks.length = createFakeBlocks height nonce count := by
    rw [hr2, List.drop_left]
  refine ⟨by rw [hd1, hd2], hd1, ?_⟩
  intro i hi
  rw [createFakeBlocks_getD height nonce count i hi]
  constructor
  · show fakeHeaderBytes (height + i) nonce ++ [1] ++ fakeCoinbaseBytesAt (height + i) = _
    rw [fakeCoinbaseBytesAt_eq, List.append_assoc]
    rfl
  · show getB (fakeHeaderBytes (height + i) nonce ++ [1] ++ fakeCoinbaseBytesAt (height + i))
      1487 = 1
    unfold getB
    rw [List.append_assoc]
    rw [getD_append_right_generic _ _ _ _ (by rw [fakeHeaderBytes_length])]
    rw [fakeHeaderBytes_length]
    rfl

/-- Witness for C9 at the concrete inputs `(5, 3, 2)` from two different
prior states. -/
theorem c9_builder_determinism_w :
    darksideStageBlocksCreate c9s1 5 3 2 = .ok c9r1 ∧
    darksideStageBlocksCreate c9s2 5 3 2 = .ok c9r2 ∧
    c9r1.stagedBlocks.drop c9s1.stagedBlocks.length =
      c9r2.stagedBlocks.drop c9s2.stagedBlocks.length := by
  refine ⟨rfl, rfl, ?_⟩
  exact (c9_builder_determinism c9s1 c9s2 5 3 2 c9r1 c9r2 rfl rfl).1

theorem strLt_nil_right (a : GoStr) : strLt a [] = false := by cases a <;> rfl

theorem strLt_irrefl (a : GoStr) : strLt a a = false := by
  induction a with
  | nil => rfl
  | cons x s ih =>
    show (if x < x then true else if x < x then false else strLt s s) = false
    rw [if_neg (by omega), if_neg (by omega)]
    exact ih

theorem strLt_trans : ∀ (a b c : GoStr), strLt a b = true → strLt b c = true →
    strLt a c = true := by
  intro a
  induction a with
  | nil =>
    intro b c hab hbc
    cases c with
    | nil => rw [strLt_nil_right] at hbc; simp at hbc
    | cons z u => rfl
  | cons x s ih =>
    intro b c hab hbc
    cases b with
    | nil => rw [strLt_nil_right] at hab; simp at hab
    | cons y t =>
      cases c with
      | nil => rw [strLt_nil_right] at hbc; simp at hbc
      | cons z u =>
        have hab2 : (if x < y then true else if y < x then false else strLt s t) = true := hab
        have hbc2 : (if y < z then true else if z < y then false else strLt t u) = true := hbc
        show (if x < z then true else if z < x then false else strLt s u) = true
        by_cases hxy : x < y
        · by_cases hyz : y < z
          · rw [if_pos (by omega)]
          · rw [if_neg hyz] at hbc2
            by_cases hzy : z < y
            · rw [if_pos hzy] at hbc2; simp at hbc2
            · rw [if_pos (by omega)]
        · rw [if_neg hxy] at hab2
          by_cases hyx : y < x
          · rw [if_pos hyx] at hab2; simp at hab2
          · rw [if_neg hyx] at hab2
            by_cases hyz : y < z
            · rw [if_pos (by omega)]
            · rw [if_neg hyz] at hbc2
              by_cases hzy : z < y
              · rw [if_pos hzy] at hbc2; simp at hbc2
              · rw [if_neg hzy] at hbc2
                rw [if_neg (by omega), if_neg (by omega)]
                exact ih t u hab2 hbc2

theorem strLt_conn : ∀ (a b : GoStr), strLt a b = false → strLt b a = false → a = b := by
  intro a
  induction a with
  | nil =>
    intro b h1 _
    cases b with
    | nil => rfl
    | cons y t => exact absurd h1 (by simp [strLt])
  | cons x s ih =>
    intro b h1 h2
    cases b with
    | nil => exact absurd h2 (by simp [strLt])
    | cons y t =>
      have h1b : (if x < y then true else if y < x then false else strLt s t) = false := h1
      have h2b : (if y < x then true else if x < y then false else strLt t s) = false := h2
      by_cases hxy : x < y
      · rw [if_pos hxy] at h1b; simp at h1b
      · by_cases hyx : y < x
        · rw [if_pos hyx] at h2b; simp at h2b
        · rw [if_neg hxy, if_neg hyx] at h1b
          rw [if_neg hyx, if_neg hxy] at h2b
          have hst : s = t := ih t h1b h2b
          have hx : x = y := by omega
          rw [hx, hst]

theorem strLt_of_lt_of_le (a b c : GoStr) (hab : strLt a b = true)
    (hcb : strLt c b = false) : strLt a c = true := by
  cases hac : strLt a c
  · cases hca : strLt c a
    · have hec := strLt_conn a c hac hca
      rw [← hec, hab] at hcb
      simp at hcb
    · have := strLt_trans c a b hca hab
      rw [this] at hcb
      simp at hcb
  · rfl

theorem strLe_eq (a b : GoStr) : (strLe a b = true) = (strLt b a = false) := by
  unfold strLe
  cases h : strLt b a <;> simp

instance : IsTrans GoStr (fun a b => strLe a b = true) := by
  constructor
  intro a b c hab hbc
  rw [strLe_eq] at hab hbc ⊢
  cases hca : strLt c a
  · rfl
  · cases hbcx : strLt b c
    · have heq := strLt_conn b c hbcx hbc
      rw [← heq] at hca
      rw [hca] at hab
      simp at hab
    · have := strLt_trans b c a hbcx hca
      rw [this] at hab
      simp at hab

instance : IsTotal GoStr (fun a b => strLe a b = true) := by
  constructor
  intro a b
  cases hab : strLt a b
  · right; rw [strLe_eq]; exact hab
  · left
    rw [strLe_eq]
    cases hba : strLt b a
    · rfl
    · have := strLt_trans a b a hab hba
      rw [strLt_irrefl] at this
      simp at this

theorem sortStrs_sorted (l : List GoStr) :
    (sortStrs l).Pairwise (fun a b => strLe a b = true) :=
  List.sorted_insertionSort _ l

theorem strLt_take : ∀ (n : Nat) (x y : GoStr),
    strLt (y.take n) (x.take n) = true → strLt y x = true := by
  intro n
  induction n with
  | zero => intro x y h; simp [strLt] at h
  | succ n ih =>
    intro x y h
    cases y with
    | nil =>
      cases x with
      | nil => simp [strLt] at h
      | cons a s => rfl
    | cons b t =>
      cases x with
      | nil => simp [strLt] at h
      | cons a s =>
        have h2 : (if b < a then true else if a < b then false else
            strLt (t.take n) (s.take n)) = true := h
        show (if b < a then true else if a < b then false else strLt t s) = true
        by_cases hba : b < a
        · rw [if_pos hba]
        · rw [if_neg hba] at h2 ⊢
          by_cases hab : a < b
          · rw [if_pos hab] at h2; simp at h2
          · rw [if_neg hab] at h2 ⊢
            exact ih s t h2

theorem lessthanGo_nil (x : GoStr) : lessthanGo [] x = false := rfl

theorem lessthan_mono (e x y : GoStr) (hxy : strLt y x = false)
    (h : lessthanGo e x = true) : lessthanGo e y = true := by
  unfold lessthanGo at h ⊢
  have htake : strLt (y.take e.length) (x.take e.length) = false := by
    cases hc : strLt (y.take e.length) (x.take e.length)
    · rfl
    · have := strLt_take e.length x y hc
      rw [this] at hxy
      simp at hxy
  exact strLt_of_lt_of_le _ _ _ h htake

theorem findIdx_getD_false {α : Type} (p : α → Bool) (l : List α) (d : α) :
    ∀ j, j < l.findIdx p → p (l.getD j d) = false := by
  induction l with
  | nil => intro j hj; simp [List.findIdx_nil] at hj
  | cons a t ih =>
    intro j hj
    rw [List.findIdx_cons] at hj
    cases hp : p a
    · rw [hp] at hj
      simp only [cond_false] at hj
      cases j with
      | zero => exact hp
      | succ j => exact ih j (by omega)
    · rw [hp] at hj
      simp only [cond_true] at hj
      omega

theorem findIdx_eq_length_of {α : Type} (p : α → Bool) (l : List α) (d : α) :
    (∀ j, j < l.length → p (l.getD j d) = false) → l.findIdx p = l.length := by
  induction l with
  | nil => intro _; rfl
  | cons a t ih =>
    intro h
    rw [List.findIdx_cons]
    have h0 : p a = false := h 0 (by simp)
    rw [h0]
    simp only [cond_false, List.length_cons]
    rw [ih (fun j hj => h (j + 1) (by simp only [List.length_cons]; omega))]

theorem findIdx_eq_of {α : Type} (p : α → Bool) (l : List α) (d : α) (k : Nat)
    (h1 : ∀ j, j < k → p (l.getD j d) = false) (h2 : p (l.getD k d) = true) :
    l.findIdx p = k := by
  induction l generalizing k with
  | nil =>
    cases k with
    | zero => rfl
    | succ k =>
      have hd : p d = false := h1 0 (by omega)
      have hdt : p d = true := h2
      rw [hd] at hdt
      simp at hdt
  | cons a t ih =>
    cases k with
    | zero =>
      have h2b : p a = true := h2
      rw [List.findIdx_cons, h2b]
      rfl
    | succ k =>
      have h0 : p a = false := h1 0 (by omega)
      rw [List.findIdx_cons, h0]
      simp only [cond_false]
      have h2b : p (t.getD k d) = true := h2
      rw [ih k (fun j hj => (h1 (j + 1) (by omega) : _)) h2b]

theorem cursorIdx_lessthan (exclude : List GoStr) (x : GoStr) :
    ∀ j, j < cursorIdx exclude x → lessthanGo (exclude.getD j []) x = true := by
  intro j hj
  have := findIdx_getD_false (fun e => ! lessthanGo e x) exclude [] j hj
  simpa using this

theorem advanceEIAux_eq_cursorIdx (exclude : List GoStr) (x : GoStr) :
    ∀ (fuel ei : Nat), exclude.length ≤ fuel + ei →
    (∀ j, j < ei → lessthanGo (exclude.getD j []) x = true) →
    advanceEIAux exclude x fuel ei = cursorIdx exclude x := by
  intro fuel
  induction fuel with
  | zero =>
    intro ei hn hinv
    have h1 : ei = exclude.length := by
      by_contra hne
      have hj := hinv exclude.length (by omega)
      rw [List.getD_eq_default _ _ (Nat.le_refl _)] at hj
      rw [lessthanGo_nil] at hj
      simp at hj
    show ei = cursorIdx exclude x
    rw [h1]
    exact (findIdx_eq_length_of _ _ [] (fun j hj => by simpa using hinv j (by omega))).symm
  | succ fuel ih =>
    intro ei hn hinv
    by_cases h : ei < exclude.length
    · show (if ei < exclude.length then
          if lessthanGo (exclude.getD ei []) x then advanceEIAux exclude x fuel (ei + 1) else ei
        else ei) = cursorIdx exclude x
      rw [if_pos h]
      by_cases hl : lessthanGo (exclude.getD ei []) x = true
      · rw [if_pos hl]
        refine ih (ei + 1) (by omega) (fun j hj => ?_)
        rcases Nat.lt_succ_iff_lt_or_eq.mp hj with hj | hj
        · exact hinv j hj
        · rw [hj]; exact hl
      · rw [if_neg hl]
        exact (findIdx_eq_of _ _ [] ei (fun j hj => by simpa using hinv j hj)
          (by simpa using hl)).symm
    · show (if ei < exclude.length then
          if lessthanGo (exclude.getD ei []) x then advanceEIAux exclude x fuel (ei + 1) else ei
        else ei) = cursorIdx exclude x
      rw [if_neg h]
      have h1 : ei = exclude.length := by
        by_contra hne
        have hj := hinv exclude.length (by omega)
        rw [List.getD_eq_default _ _ (Nat.le_refl _)] at hj
        rw [lessthanGo_nil] at hj
        simp at hj
      rw [h1]
      exact (findIdx_eq_length_of _ _ [] (fun j hj => by simpa using hinv j (by omega))).symm

theorem advanceEI_eq_cursorIdx (exclude : List GoStr) (x : GoStr) (ei : Nat)
    (hinv : ∀ j, j < ei → lessthanGo (exclude.getD j []) x = true) :
    advanceEI exclude x ei = cursorIdx exclude x :=
  advanceEIAux_eq_cursorIdx exclude x (exclude.length - ei) ei (by omega) hinv

theorem cursorTally_cons (exclude : List GoStr) (x : GoStr) (rest : List GoStr) (k : Nat) :
    cursorTally exclude (x :: rest) k =
      cursorTally exclude rest k +
        (if (decide (cursorIdx exclude x = k) && cursorMatches exclude x) = true
          then 1 else 0) := by
  unfold cursorTally
  rw [List.countP_cons]

theorem keepPass_eq (exclude : List GoStr) (nm : List Nat) :
    ∀ (items : List GoStr) (ei : Nat),
    items.Pairwise (fun a b => strLe a b = true) →
    (∀ x ∈ items, ∀ j, j < ei → lessthanGo (exclude.getD j []) x = true) →
    keepPass exclude nm items ei = items.filter
      (fun x => (! cursorMatches exclude x) ||
        decide (getB nm (cursorIdx exclude x) > 1)) := by
  intro items
  induction items with
  | nil => intro ei _ _; rfl
  | cons x rest ih =>
    intro ei hpw hinv
    have hx : advanceEI exclude x ei = cursorIdx exclude x :=
      advanceEI_eq_cursorIdx exclude x ei (fun j hj => hinv x (by simp) j hj)
    show (if (! matchAtEI exclude x (advanceEI exclude x ei)) ||
          decide (getB nm (advanceEI exclude x ei) > 1) then
        x :: keepPass exclude nm rest (advanceEI exclude x ei)
      else keepPass exclude nm rest (advanceEI exclude x ei)) = _
    rw [hx]
    have hpw2 := List.pairwise_cons.mp hpw
    have hrest := ih (cursorIdx exclude x) hpw2.2 (fun y hy j hj => by
      have hxy : strLe x y = true := hpw2.1 y hy
      have h1 : lessthanGo (exclude.getD j []) x = true := cursorIdx_lessthan exclude x j hj
      exact lessthan_mono _ x y (by rw [← strLe_eq]; exact hxy) h1)
    rw [hrest, List.filter_cons]
    rfl

theorem tallyPass_getB (exclude : List GoStr) :
    ∀ (items : List GoStr) (ei : Nat) (nm : List Nat),
    items.Pairwise (fun a b => strLe a b = true) →
    (∀ x ∈ items, ∀ j, j < ei → lessthanGo (exclude.getD j []) x = true) →
    nm.length = exclude.length →
    ∀ k, getB (tallyPass exclude items ei nm) k = getB nm k + cursorTally exclude items k := by
  intro items
  induction items with
  | nil =>
    intro ei nm _ _ _ k
    show getB nm k = getB nm k + cursorTally exclude [] k
    have h0 : cursorTally exclude [] k = 0 := rfl
    rw [h0]
    omega
  | cons x rest ih =>
    intro ei nm hpw hinv hlen k
    have hx : advanceEI exclude x ei = cursorIdx exclude x :=
      advanceEI_eq_cursorIdx exclude x ei (fun j hj => hinv x (by simp) j hj)
    show getB (tallyPass exclude rest (advanceEI exclude x ei)
        (if matchAtEI exclude x (advanceEI exclude x ei) then
          setB nm (advanceEI exclude x ei) (getB nm (advanceEI exclude x ei) + 1)
        else nm)) k = _
    rw [hx]
    have hpw2 := List.pairwise_cons.mp hpw
    have hinvrest : ∀ y ∈ rest, ∀ j, j < cursorIdx exclude x →
        lessthanGo (exclude.getD j []) y = true := by
      intro y hy j hj
      have hxy : strLe x y = true := hpw2.1 y hy
      have h1 : lessthanGo (exclude.getD j []) x = true := cursorIdx_lessthan exclude x j hj
      exact lessthan_mono _ x y (by rw [← strLe_eq]; exact hxy) h1
    rw [cursorTally_cons]
    by_cases hm : matchAtEI exclude x (cursorIdx exclude x) = true
    · rw [if_pos hm]
      have hclen : cursorIdx exclude x < exclude.length := by
        have hm2 := hm
        unfold matchAtEI at hm2
        simp only [Bool.and_eq_true, decide_eq_true_eq] at hm2
        exact hm2.1
      rw [ih (cursorIdx exclude x)
        (setB nm (cursorIdx exclude x) (getB nm (cursorIdx exclude x) + 1))
        hpw2.2 hinvrest (by rw [setB, List.length_set]; exact hlen) k]
      unfold getB setB
      rw [getD_set_generic]
      have hcm : cursorMatches exclude x = true := hm
      by_cases hk : cursorIdx exclude x = k
      · rw [if_pos ⟨hk, by omega⟩]
        rw [hk]
        rw [if_pos (by rw [hcm]; simp)]
        show getB nm k + 1 + cursorTally exclude rest k =
          getB nm k + (cursorTally exclude rest k + 1)
        omega
      · rw [if_neg (by intro hc; exact hk hc.1)]
        rw [if_neg (by
          intro hc
          simp only [Bool.and_eq_true, decide_eq_true_eq] at hc
          exact hk hc.1)]
        show getB nm k + cursorTally exclude rest k = getB nm k + (cursorTally exclude rest k + 0)
        omega
    · rw [if_neg hm]
      rw [ih (cursorIdx exclude x) nm hpw2.2 hinvrest hlen k]
      have hcm : cursorMatches exclude x = false := by
        cases hc : cursorMatches exclude x
        · rfl
        · exact absurd (hc : matchAtEI exclude x (cursorIdx exclude x) = true) hm
      rw [if_neg (by
        intro hc
        simp only [Bool.and_eq_true] at hc
        rw [hcm] at hc
        simp at hc)]
      omega

theorem mempoolFilter_eq_spec (items exclude : List GoStr) :
    MempoolFilter items exclude = mempoolFilterSpec items exclude := by
  show keepPass (sortStrs exclude)
      (tallyPass (sortStrs exclude) (sortStrs items) 0
        (List.replicate (sortStrs exclude).length 0))
      (sortStrs items) 0 =
    (sortStrs items).filter (fun x =>
      (! cursorMatches (sortStrs exclude) x) ||
        decide (cursorTally (sortStrs exclude) (sortStrs items)
          (cursorIdx (sortStrs exclude) x) > 1))
  rw [keepPass_eq (sortStrs exclude) _ (sortStrs items) 0 (sortStrs_sorted items)
    (fun x _ j hj => absurd hj (by omega))]
  apply List.filter_congr
  intro x _
  have ht := tallyPass_getB (sortStrs exclude) (sortStrs items) 0
    (List.replicate (sortStrs exclude).length 0) (sortStrs_sorted items)
    (fun x _ j hj => absurd hj (by omega)) (List.length_replicate _ _)
    (cursorIdx (sortStrs exclude) x)
  rw [ht]
  have h0 : getB (List.replicate (sortStrs exclude).length 0)
      (cursorIdx (sortStrs exclude) x) = 0 := getB_zeros _ _
  rw [h0, Nat.zero_add]

/-- Counterexample to C3's universal "kept unless some exclude entry is a
prefix of the item and of exactly one item": with sorted items
`{"abc","abd"}` and exclude `{"ab","abc"}`, the entry `"abc"` is a member of
the exclude list and a prefix of exactly one item (`"abc"` itself), yet
`MempoolFilter` keeps that item — the cursor pairs `"abc"` with the earlier
entry `"ab"` (the first entry not `lessthan` it) and never considers
`"abc"`. -/
theorem c3_counterexample :
    MempoolFilter [sbStr "abc", sbStr "abd"] [sbStr "ab", sbStr "abc"] =
      [sbStr "abc", sbStr "abd"] ∧
    sbStr "abc" ∈ [sbStr "ab", sbStr "abc"] ∧
    hasPrefixGo (sbStr "abc") (sbStr "abc") = true ∧
    List.countP (fun x => hasPrefixGo x (sbStr "abc")) [sbStr "abc", sbStr "abd"] = 1 := by
  decide

/-- Claim C3 (corrected form): `MempoolFilter` coincides with the cursor-based
specification `mempoolFilterSpec` — after sorting both lists, an item is kept
unless its cursor entry (the first exclude entry not `lessthan` it) is a
prefix of it and that entry is the matched cursor entry of exactly one item;
and on the spec's concrete example the output is exactly
`{"abcd1234", "abcd5678"}`. -/
theorem c3_filter_semantics (items exclude : List GoStr) :
    MempoolFilter items exclude = mempoolFilterSpec items exclude ∧
    MempoolFilter [sbStr "abcd1234", sbStr "abcd5678", sbStr "ef000000"]
        [sbStr "abcd", sbStr "ef000000"] =
      [sbStr "abcd1234", sbStr "abcd5678"] :=
  ⟨mempoolFilter_eq_spec items exclude, by decide⟩

theorem mempoolSendList_all (m : MMap) : ∀ (l : List GoStr),
    (∀ x ∈ l, mlookup m x ≠ none) →
    mempoolSendList m l = some ((l.filterMap (fun x => mlookup m x)).filter
      (fun t => decide (0 < t.hash.length))) := by
  intro l
  induction l with
  | nil => intro _; rfl
  | cons txid rest ih =>
    intro hall
    have hx : mlookup m txid ≠ none := hall txid (by simp)
    rcases hlk : mlookup m txid with _ | tx
    · exact absurd hlk hx
    · show (match mlookup m txid with
        | none => none
        | some tx => match mempoolSendList m rest with
          | none => none
          | some l => some (if 0 < tx.hash.length then tx :: l else l)) = _
      rw [hlk, ih (fun x hx2 => hall x (by simp [hx2]))]
      rw [List.filterMap_cons]
      simp only [hlk]
      rw [List.filter_cons]
      by_cases hlen : 0 < tx.hash.length
      · rw [if_pos hlen, if_pos (by simpa using hlen)]
      · rw [if_neg hlen, if_neg (by simpa using hlen)]

/-- Counterexample to C8's "sends exactly those filter-surviving ids whose
stored entry is non-empty": an id whose fetch failed is skipped by the
refresh (so the refresh succeeds with an empty map), survives the filter,
and then the send loop dereferences the nil map entry — the call panics
(modelled `none`) instead of completing the send. -/
theorem c8_counterexample :
    refreshMempool (fun _ => none) (some []) [sbStr "aa"] = .ok [] ∧
    MempoolFilter [sbStr "aa"] [] = [sbStr "aa"] ∧
    mempoolSendList [] [sbStr "aa"] = none ∧
    getMempoolQuery (fun _ => none) (some []) [sbStr "aa"] [] = .ok ([], none) :=
  ⟨rfl, by decide, rfl, rfl⟩

/-- Claim C8 (corrected): during the refresh, an id whose raw-transaction
fetch fails is skipped without surfacing an error; a fetched transaction
with no shielded-pool elements is stored as the empty placeholder; and the
send loop sends exactly those filter-surviving ids whose stored entry is
non-empty, in the filter's output order, provided every surviving id is
present in the map — an id absent from the map (possible exactly because
failed fetches are skipped) makes the send loop panic on a nil entry. -/
theorem c8_mempool_send (fetch : GoStr → Option String) (prevMap : Option MMap)
    (acc m : MMap) (txid : GoStr) (rest survivors : List GoStr) (s : String) (b : Bytes)
    (hcarry : mlookup (match prevMap with | some p => p | none => acc) txid = none)
    (hall : ∀ x ∈ survivors, mlookup m x ≠ none) :
    (fetch txid = none →
      refreshLoop fetch prevMap (txid :: rest) acc = refreshLoop fetch prevMap rest acc) ∧
    (fetch txid = some s → hexDecode s = some b → txParsesExactly b = true →
      hasSaplingElements b = false →
      refreshLoop fetch prevMap (txid :: rest) acc =
        refreshLoop fetch prevMap rest (minsert acc txid { hash := [] })) ∧
    mempoolSendList m survivors =
      some ((survivors.filterMap (fun x => mlookup m x)).filter
        (fun t => decide (0 < t.hash.length))) := by
  refine ⟨?_, ?_, mempoolSendList_all m survivors hall⟩
  · intro hf
    simp only [refreshLoop, hcarry, hf]
  · intro hf hdec hp hsap
    simp only [refreshLoop, hcarry, hf, hdec, hp, hsap]
    simp

/-- Witness for C8: a failed fetch of `"bb"` is skipped, and a one-entry map
with a non-empty hash sends exactly that entry. -/
theorem c8_mempool_send_w :
    mlookup ([] : MMap) (sbStr "bb") = none ∧
    (∀ x ∈ [sbStr "cc"], mlookup [(sbStr "cc", ({ hash := [1] } : CompactTx))] x ≠ none) ∧
    refreshLoop (fun _ => none) none (sbStr "bb" :: []) [] =
      refreshLoop (fun _ => none) none [] [] ∧
    mempoolSendList [(sbStr "cc", ({ hash := [1] } : CompactTx))] [sbStr "cc"] =
      some [{ hash := [1] }] := by
  refine ⟨by decide, by decide, ?_, ?_⟩
  · exact (c8_mempool_send (fun _ => none) none [] [(sbStr "cc", { hash := [1] })]
      (sbStr "bb") [] [sbStr "cc"] "" [] (by decide) (by decide)).1 rfl
  · have h := (c8_mempool_send (fun _ => none) none [] [(sbStr "cc", { hash := [1] })]
      (sbStr "bb") [] [sbStr "cc"] "" [] (by decide) (by decide)).2.2
    rw [h]
    decide
